import Mathlib

/-
Verification of the HFT columnar / block storage engine.

Shallow embedding of the C++ sources:
  * src/block_codec.h   (L2TBlockCodec: zigzag, bit packing, encode_block, decode_block,
                         and the columnar WriterT that shares the file)
  * src/block_writer.h  (BlockWriterT: day-file paths)
  * src/block_reader.h  (BlockReaderT: day-file enumeration)
  * src/schemas.h       (schema registry and ColFileHeaderT layout)

Machine integers are modelled as `Nat` (or `Int` for signed values) with explicit
`% 2^w` wherever the C++ arithmetic can wrap.  Byte buffers are `List Nat` whose
elements are byte values.  Out-of-range reads use `List.getD _ _ 0`.
-/

namespace HftStore

/-! ## Primitive integer helpers -/

/-- The bit pattern of an `int32_t` value as `uint32_t` (two's complement),
i.e. `static_cast<uint32_t>(v)` for `v` in the int32 range. -/
def u32ofInt (v : Int) : Nat := (v % (2 ^ 32 : Int)).toNat

/-- Reading a `uint32_t` bit pattern back as `int32_t` (two's complement). -/
def i32ofU32 (u : Nat) : Int := if u < 2 ^ 31 then (u : Int) else (u : Int) - 2 ^ 32

/-- The wrap of an `int64` difference into `int32_t`, i.e.
`static_cast<int32_t>(x)` for an arbitrary integer `x`. -/
def i32wrap (x : Int) : Int := i32ofU32 (u32ofInt x)

/-- `L2TBlockCodec::zigzag_enc32`:
`(static_cast<uint32_t>(v) << 1) ^ static_cast<uint32_t>(v >> 31)`.
The left shift is a `uint32_t` shift, hence the `% 2^32`; `v >> 31` is the
arithmetic shift of the signed value. -/
def zigzag_enc32 (v : Int) : Nat :=
  ((u32ofInt v <<< 1) % 2 ^ 32) ^^^ u32ofInt (v >>> 31)

/-- `L2TBlockCodec::zigzag_dec32`: `int32_t((v >> 1) ^ -(v & 1))`.
`-(v & 1)` is `uint32_t` negation, i.e. `(2^32 - (v & 1)) % 2^32`. -/
def zigzag_dec32 (u : Nat) : Int :=
  i32ofU32 ((u >>> 1) ^^^ ((2 ^ 32 - (u &&& 1)) % 2 ^ 32))

/-- The bit length of `n` (64 - clz for a `uint64_t`), computed with fuel `f`;
64 iterations suffice for any value below `2^64`. -/
def bitLenF : Nat → Nat → Nat
  | 0, _ => 0
  | f + 1, n => if n = 0 then 0 else bitLenF f (n / 2) + 1

/-- `64u - __builtin_clzll(y)` for a `uint64_t` value `y`: its bit length. -/
def bitLen64 (n : Nat) : Nat := bitLenF 64 n

/-- `L2TBlockCodec::ceil_log2_u64`: returns 1 for `x ≤ 1`, otherwise
`64 - clzll(x-1)`, the bit length of `x-1`. -/
def ceil_log2_u64 (x : Nat) : Nat :=
  if x ≤ 1 then 1 else bitLen64 (x - 1)

/-! ## Bit packing (`bitpack_u64` / `bitpack_u32` and the unpackers)

Both packers run the same loop over a `uint64_t` accumulator and differ only in
the mask they precompute, so the shared loop is factored out with the mask as a
parameter, exactly as the two C++ bodies coincide textually. -/

/-- The inner `while (bits >= 8) { out.push_back(acc & 0xff); acc >>= 8; bits -= 8; }`
loop of the packers, with an explicit iteration bound (each iteration consumes
8 of `bits`, so any fuel ≥ `bits` makes the cutoff unreachable).
Returns (emitted bytes, final acc, final bits). -/
def packDrainF : Nat → Nat → Nat → List Nat × Nat × Nat
  | 0, acc, bits => ([], acc, bits)
  | fuel + 1, acc, bits =>
    if 8 ≤ bits then
      let r := packDrainF fuel (acc >>> 8) (bits - 8)
      ((acc &&& 255) :: r.1, r.2)
    else
      ([], acc, bits)

/-- The drain loop with its natural fuel. -/
def packDrain (acc bits : Nat) : List Nat × Nat × Nat :=
  packDrainF bits acc bits

/-- The packing loop shared by `bitpack_u64` and `bitpack_u32`:
`acc |= (vals[i] & mask) << bits` on a `uint64_t` accumulator (hence `% 2^64`),
draining full bytes, with a final flush `if (bits > 0) out.push_back(acc & 0xff)`. -/
def packLoop (mask bw : Nat) : List Nat → Nat → Nat → List Nat
  | [], acc, bits => if 0 < bits then [acc &&& 255] else []
  | v :: vs, acc, bits =>
    let acc1 := acc ||| (((v &&& mask) <<< bits) % 2 ^ 64)
    let d := packDrain acc1 (bits + bw)
    d.1 ++ packLoop mask bw vs d.2.1 d.2.2

/-- `L2TBlockCodec::bitpack_u64`.  Mask: `(bw == 64) ? ~0ull : (1ull << bw) - 1`. -/
def bitpack_u64 (vals : List Nat) (bw : Nat) : List Nat :=
  if bw = 0 ∨ vals = [] then []
  else packLoop (if bw = 64 then 2 ^ 64 - 1 else (1 <<< bw) - 1) bw vals 0 0

/-- `L2TBlockCodec::bitpack_u32`.  Mask: `bw == 32 ? 0xffffffff : (1ull << bw) - 1`. -/
def bitpack_u32 (vals : List Nat) (bw : Nat) : List Nat :=
  if bw = 0 ∨ vals = [] then []
  else packLoop (if bw = 32 then 2 ^ 32 - 1 else (1 <<< bw) - 1) bw vals 0 0

/-- The inner `while (bits < bw) { acc |= uint64_t(src[idx++]) << bits; bits += 8; }`
loop of the unpackers, with an explicit iteration bound (each iteration adds 8
to `bits`, which the loop drives up to at most `bw + 7`, so any fuel with
`bw - bits ≤ 8·fuel` makes the cutoff unreachable).
Returns (final idx, final acc, final bits). -/
def unpackLoadF (src : List Nat) (bw : Nat) : Nat → Nat → Nat → Nat → Nat × Nat × Nat
  | 0, idx, acc, bits => (idx, acc, bits)
  | fuel + 1, idx, acc, bits =>
    if bits < bw then
      unpackLoadF src bw fuel (idx + 1) (acc ||| ((src.getD idx 0 <<< bits) % 2 ^ 64))
        (bits + 8)
    else
      (idx, acc, bits)

/-- The load loop with its natural fuel. -/
def unpackLoad (src : List Nat) (bw idx acc bits : Nat) : Nat × Nat × Nat :=
  unpackLoadF src bw bw idx acc bits

/-- The unpacking loop shared by `bitunpack_u64` and `bitunpack_u32`:
for each of `n` outputs, load bytes until `bits ≥ bw`, emit `acc & mask`,
then `acc >>= bw; bits -= bw`.  The shift `acc >>= bw` on the `uint64_t`
accumulator is undefined behaviour in C++ when `bw = 64`; every mainstream
target (x86 `shr`, AArch64 `lsrv`, RISC-V) reduces the shift count modulo the
word width, so the shift is modelled as `>>> (bw % 64)` - at `bw = 64` the
accumulator is left unchanged, not zeroed. -/
def unpackLoop (mask : Nat) (src : List Nat) (bw : Nat) :
    Nat → Nat → Nat → Nat → List Nat
  | 0, _, _, _ => []
  | n + 1, idx, acc, bits =>
    let l := unpackLoad src bw idx acc bits
    (l.2.1 &&& mask) :: unpackLoop mask src bw n l.1 (l.2.1 >>> (bw % 64)) (l.2.2 - bw)

/-- `L2TBlockCodec::bitunpack_u64`: zero-fills and returns when `bw == 0 || n == 0`. -/
def bitunpack_u64 (src : List Nat) (n bw : Nat) : List Nat :=
  if bw = 0 ∨ n = 0 then List.replicate n 0
  else unpackLoop (if bw = 64 then 2 ^ 64 - 1 else (1 <<< bw) - 1) src bw n 0 0 0

/-- `L2TBlockCodec::bitunpack_u32`.  Its `bw == 0 || n == 0` guard zero-fills but
(missing `return`) falls through; the main loop then overwrites every slot with
`acc & mask`, which for `bw = 0` (mask 0, no loads) is again 0, so the function
equals the main loop alone.  Each output is truncated by the `uint32_t` store. -/
def bitunpack_u32 (src : List Nat) (n bw : Nat) : List Nat :=
  (unpackLoop (if bw = 32 then 2 ^ 32 - 1 else (1 <<< bw) - 1) src bw n 0 0 0).map
    (· % 2 ^ 32)

/-! ## 1-bit packing (`bitpack_u8` / `bitunpack_u8`) -/

/-- A byte built as `b |= (src[i+k] & 1) << k` over an 8-element (or shorter,
for the tail) chunk, bit index starting at `bit`. -/
def packBits : List Nat → Nat → Nat
  | [], _ => 0
  | v :: vs, bit => ((v &&& 1) <<< bit) ||| packBits vs (bit + 1)

/-- `L2TBlockCodec::bitpack_u8`: full 8-element chunks, then one partial byte.
Each chunk consumes 8 source elements, so fuel ≥ `src.length` suffices. -/
def bitpack_u8F : Nat → List Nat → List Nat
  | 0, _ => []
  | fuel + 1, src =>
    if 8 ≤ src.length then
      packBits (src.take 8) 0 :: bitpack_u8F fuel (src.drop 8)
    else if src.length = 0 then [] else [packBits src 0]

/-- The chunk loop with its natural fuel. -/
def bitpack_u8 (src : List Nat) : List Nat :=
  bitpack_u8F src.length src

/-- `L2TBlockCodec::bitunpack_u8`: for each input byte emit its 8 bits
`b >> k & 1`; the final partial byte yields the remaining `n % 8` bits.
Each chunk consumes 8 of `n`, so fuel ≥ `n` suffices. -/
def bitunpack_u8F : Nat → List Nat → Nat → List Nat
  | 0, _, _ => []
  | fuel + 1, src, n =>
    if 8 ≤ n then
      (List.range 8).map (fun k => (src.getD 0 0 >>> k) &&& 1) ++
        bitunpack_u8F fuel (src.drop 1) (n - 8)
    else
      (List.range n).map (fun k => (src.getD 0 0 >>> k) &&& 1)

/-- The chunk loop with its natural fuel. -/
def bitunpack_u8 (src : List Nat) (n : Nat) : List Nat :=
  bitunpack_u8F n src n

/-! ## Abstract values of byte / value streams (specification helpers) -/

/-- The number whose little-endian base-256 digits are the given bytes. -/
def bytesToNat : List Nat → Nat
  | [] => 0
  | b :: bs => b + 256 * bytesToNat bs

/-- The number whose little-endian base-`2^bw` digits are the given values. -/
def valsToNat (bw : Nat) : List Nat → Nat
  | [] => 0
  | v :: vs => v + 2 ^ bw * valsToNat bw vs

/-- The low `n` base-`2^bw` digits of a number, as a list. -/
def natDigits (bw : Nat) : Nat → Nat → List Nat
  | _, 0 => []
  | x, n + 1 => x % 2 ^ bw :: natDigits bw (x / 2 ^ bw) n

/-! ## Little-endian field serialization (for `memcpy` of packed structs) -/

/-- The `w` little-endian bytes of a value (as `memcpy` of a `w`-byte field). -/
def leBytes : Nat → Nat → List Nat
  | 0, _ => []
  | w + 1, v => v % 256 :: leBytes w (v / 256)

/-- Read a `w`-byte little-endian field at offset `off` of a byte buffer. -/
def leRead (bs : List Nat) (off w : Nat) : Nat :=
  bytesToNat ((bs.drop off).take w)

/-! ## The block codec (`L2TBlockCodec::encode_block` / `decode_block`) -/

/-- Modelled from the spec: the trade-flavored row the block codec operates on.
No schema under src/ defines it (the spec notes `row.ts_ts` / `row.type` appear
in codec paths but in no row struct); per spec §4.E it carries `ts_ns` u64,
`price` u32, `size` f32 (handled byte-verbatim, so carried here as the u32 bit
pattern of its 4 bytes), `side` u8 and the `type` character (`'T'` = 84). -/
structure TradeRow where
  ts_ns : Nat
  price : Nat
  size : Nat
  side : Nat
  type : Nat
  deriving DecidableEq

/-- `L2TBlockCodec::BlockHeader` (packed, 76 bytes).  `BlockHeader hdr{}`
zero-initializes every field except `ts_scale_ns`, whose member initializer
is 1'000'000; `magic` is never written by `encode_block` and stays zero. -/
structure BlockHeader where
  magic : List Nat := List.replicate 8 0
  version : Nat := 0
  flags : Nat := 0
  n_rows : Nat := 0
  base_ts : Nat := 0
  base_px : Nat := 0
  ts_scale_ns : Nat := 1000000
  ts_bw : Nat := 0
  px_bw : Nat := 0
  reserved0 : Nat := 0
  off_ts : Nat := 0
  len_ts : Nat := 0
  off_px : Nat := 0
  len_px : Nat := 0
  off_sz : Nat := 0
  len_sz : Nat := 0
  off_side : Nat := 0
  len_side : Nat := 0
  off_type : Nat := 0
  len_type : Nat := 0
  deriving DecidableEq

/-- Size of the packed `BlockHeader`. -/
def HDR_SIZE : Nat := 76

/-- `memcpy` of the packed header into a byte buffer: each field contributes its
little-endian bytes (a `w`-byte store keeps only the low `w` bytes, as the
C++ field types do). -/
def serializeHeader (h : BlockHeader) : List Nat :=
  (h.magic.take 8 ++ List.replicate (8 - h.magic.length) 0) ++
  leBytes 2 h.version ++ leBytes 2 h.flags ++ leBytes 4 h.n_rows ++
  leBytes 8 h.base_ts ++ leBytes 4 h.base_px ++ leBytes 4 h.ts_scale_ns ++
  leBytes 1 h.ts_bw ++ leBytes 1 h.px_bw ++ leBytes 2 h.reserved0 ++
  leBytes 4 h.off_ts ++ leBytes 4 h.len_ts ++
  leBytes 4 h.off_px ++ leBytes 4 h.len_px ++
  leBytes 4 h.off_sz ++ leBytes 4 h.len_sz ++
  leBytes 4 h.off_side ++ leBytes 4 h.len_side ++
  leBytes 4 h.off_type ++ leBytes 4 h.len_type

/-- `memcpy` of the packed header out of a byte buffer (field offsets as laid
out by `#pragma pack(1)`). -/
def deserializeHeader (bs : List Nat) : BlockHeader where
  magic := (bs.take 8 ++ List.replicate (8 - bs.length) 0).take 8
  version := leRead bs 8 2
  flags := leRead bs 10 2
  n_rows := leRead bs 12 4
  base_ts := leRead bs 16 8
  base_px := leRead bs 24 4
  ts_scale_ns := leRead bs 28 4
  ts_bw := leRead bs 32 1
  px_bw := leRead bs 33 1
  reserved0 := leRead bs 34 2
  off_ts := leRead bs 36 4
  len_ts := leRead bs 40 4
  off_px := leRead bs 44 4
  len_px := leRead bs 48 4
  off_sz := leRead bs 52 4
  len_sz := leRead bs 56 4
  off_side := leRead bs 60 4
  len_side := leRead bs 64 4
  off_type := leRead bs 68 4
  len_type := leRead bs 72 4

/-- Concatenated little-endian fields (a packed struct tail). -/
def leFields : List (Nat × Nat) → List Nat
  | [] => []
  | (w, v) :: fs => leBytes w v ++ leFields fs

/-- The 8 magic bytes as serialized (padded/truncated to 8). -/
def magicPart (h : BlockHeader) : List Nat :=
  h.magic.take 8 ++ List.replicate (8 - h.magic.length) 0

/-- Total byte width of a field list. -/
def widthSum : List (Nat × Nat) → Nat
  | [] => 0
  | (w, _) :: fs => w + widthSum fs

/-- The packed fields of `BlockHeader` after the magic, as (width, value). -/
def hdrFields (h : BlockHeader) : List (Nat × Nat) :=
  [(2, h.version), (2, h.flags), (4, h.n_rows), (8, h.base_ts), (4, h.base_px),
   (4, h.ts_scale_ns), (1, h.ts_bw), (1, h.px_bw), (2, h.reserved0),
   (4, h.off_ts), (4, h.len_ts), (4, h.off_px), (4, h.len_px),
   (4, h.off_sz), (4, h.len_sz), (4, h.off_side), (4, h.len_side),
   (4, h.off_type), (4, h.len_type)]

/-- Modelled from the spec: `check_magic` is called by `decode_block` but its
definition is missing from the sources.  The spec (§4.E Decode: "verify magic";
§8 P5/S5: every encoded block decodes successfully) requires it to accept
exactly the blocks `encode_block` produces, and `encode_block` leaves the
zero-initialized `hdr.magic` untouched, so the accepted magic is eight zero
bytes. -/
def check_magic (h : BlockHeader) : Bool :=
  decide (h.magic = List.replicate 8 0)

/-- `encode_block`'s timestamp column: `ts_delta[i]` is
`uint32_t((rows[i].ts_ns - base_ts) / hdr.ts_scale_ns)` (u64 subtraction,
`uint32_t` truncation), stored widened in a u64 vector. -/
def encTsDelta (rows : List TradeRow) (base_ts : Nat) : List Nat :=
  rows.map (fun r => (((r.ts_ns - base_ts) % 2 ^ 64) / 1000000) % 2 ^ 32)

/-- `encode_block`'s price column: the zigzag of the `int32_t` wrap of
`rows[i].price - int64_t(base_px)`. -/
def encPxZz (rows : List TradeRow) (base_px : Nat) : List Nat :=
  rows.map (fun r => zigzag_enc32 (i32wrap ((r.price : Int) - (base_px : Int))))

/-- `encode_block`'s side column (`uint8_t` vector). -/
def encSides (rows : List TradeRow) : List Nat :=
  rows.map (fun r => r.side % 2 ^ 8)

/-- `encode_block`'s type column: `'T' ↦ 1`, otherwise 0. -/
def encTypes (rows : List TradeRow) : List Nat :=
  rows.map (fun r => if r.type = 84 then 1 else 0)

/-- `encode_block`'s size column: the four raw bytes of each row's `size`. -/
def encSz (rows : List TradeRow) : List Nat :=
  (rows.map (fun r => leBytes 4 r.size)).flatten

/-- The running maximum `if (u > max) max = u` over a column, starting at 0. -/
def listMax (l : List Nat) : Nat := l.foldl max 0

/-- `hdr.ts_bw = ceil_log2_u64(max_dt + 1)`. -/
def encTsBw (rows : List TradeRow) (base_ts : Nat) : Nat :=
  ceil_log2_u64 (listMax (encTsDelta rows base_ts) + 1)

/-- `hdr.px_bw = ceil_log2_u64(max_dxz + 1)`. -/
def encPxBw (rows : List TradeRow) (base_px : Nat) : Nat :=
  ceil_log2_u64 (listMax (encPxZz rows base_px) + 1)

/-- The header `encode_block` memcpy's over the reserved prefix once the five
column payloads are packed: offsets accumulate the measured payload lengths. -/
def encHdr (rows : List TradeRow) (r0 : TradeRow) : BlockHeader :=
  let tsB := bitpack_u64 (encTsDelta rows r0.ts_ns) (encTsBw rows r0.ts_ns)
  let pxB := bitpack_u32 (encPxZz rows r0.price) (encPxBw rows r0.price)
  let sideB := bitpack_u8 (encSides rows)
  let typeB := bitpack_u8 (encTypes rows)
  { version := 1
    flags := 0
    n_rows := rows.length
    base_ts := r0.ts_ns
    base_px := r0.price
    ts_scale_ns := 1000000
    ts_bw := encTsBw rows r0.ts_ns
    px_bw := encPxBw rows r0.price
    reserved0 := 0
    off_ts := HDR_SIZE
    len_ts := tsB.length
    off_px := HDR_SIZE + tsB.length
    len_px := pxB.length
    off_sz := HDR_SIZE + tsB.length + pxB.length
    len_sz := rows.length * 4
    off_side := HDR_SIZE + tsB.length + pxB.length + rows.length * 4
    len_side := sideB.length
    off_type := HDR_SIZE + tsB.length + pxB.length + rows.length * 4 + sideB.length
    len_type := typeB.length }

/-- `L2TBlockCodec::encode_block` on `n = rows.length` rows appended to an empty
buffer (the block writer always encodes into a cleared `block_buf_`).
Per the source: timestamp deltas, zigzag price deltas, the raw size bytes and
the bit-packed side/type columns follow the 76-byte header, whose
offset/length fields record the measured payload lengths; the bit widths are
`ceil_log2_u64(max + 1)`. -/
def encode_block (rows : List TradeRow) : List Nat :=
  match rows with
  | [] => []
  | r0 :: _ =>
    serializeHeader (encHdr rows r0) ++
      bitpack_u64 (encTsDelta rows r0.ts_ns) (encTsBw rows r0.ts_ns) ++
      bitpack_u32 (encPxZz rows r0.price) (encPxBw rows r0.price) ++
      encSz rows ++
      bitpack_u8 (encSides rows) ++
      bitpack_u8 (encTypes rows)

/-- The body of `decode_block`'s reconstruction loop for row `i`.
`r.ts_ts` (the row timestamp) is `base_ts + u * ts_scale_ns` in u64 arithmetic.
`px` is `uint64_t px = hdr.base_px + dx`: the addition happens in `uint32_t`
(usual arithmetic conversions) and is then widened, hence the wrap to 32 bits
before the `px < 0 || px > UINT32_MAX` test.  The computed `px` is never stored:
`rows_out.resize` value-initialized the row, so `price` remains 0.
`size` is a 4-byte verbatim copy from `src + off_sz + 4*i`. -/
def decodeRow (hdr : BlockHeader) (src ts_delta px_dz sides types : List Nat)
    (i : Nat) : Except String TradeRow :=
  let u := ts_delta.getD i 0
  let dx := zigzag_dec32 (px_dz.getD i 0)
  let px : Nat := (((hdr.base_px : Int) + dx) % (2 ^ 32 : Int)).toNat
  if px < 0 ∨ px > 2 ^ 32 - 1 then
    Except.error "price overflow"
  else
    Except.ok
      { ts_ns := (hdr.base_ts + u * hdr.ts_scale_ns) % 2 ^ 64
        price := 0
        size := leRead src (hdr.off_sz + 4 * i) 4
        side := sides.getD i 0
        type := if types.getD i 0 = 1 then 84 else 76 }

/-- The row `decodeRow` produces when its overflow test does not fire: the
else-branch record of `decodeRow`, factored out so the successful decode can
be named. -/
def decodeRowOut (hdr : BlockHeader) (src ts_delta _px_dz sd tp : List Nat)
    (i : Nat) : TradeRow :=
  { ts_ns := (hdr.base_ts + ts_delta.getD i 0 * hdr.ts_scale_ns) % 2 ^ 64
    price := 0
    size := leRead src (hdr.off_sz + 4 * i) 4
    side := sd.getD i 0
    type := if tp.getD i 0 = 1 then 84 else 76 }

/-- `decode_block`'s timestamp column: all-zero when `ts_bw == 0`, otherwise
unpacked from `src + hdr.off_ts`. -/
def decode_ts (hdr : BlockHeader) (src : List Nat) : List Nat :=
  if hdr.ts_bw = 0 then List.replicate hdr.n_rows 0
  else bitunpack_u64 (src.drop hdr.off_ts) hdr.n_rows hdr.ts_bw

/-- `decode_block`'s price column: all-zero when `px_bw == 0`, otherwise
unpacked - faithful to the source - from `src + hdr.len_px` (not `off_px`). -/
def decode_px (hdr : BlockHeader) (src : List Nat) : List Nat :=
  if hdr.px_bw = 0 then List.replicate hdr.n_rows 0
  else bitunpack_u32 (src.drop hdr.len_px) hdr.n_rows hdr.px_bw

/-- `decode_block`'s side column, unpacked from `src + hdr.off_side`. -/
def decode_sides_col (hdr : BlockHeader) (src : List Nat) : List Nat :=
  bitunpack_u8 (src.drop hdr.off_side) hdr.n_rows

/-- `decode_block`'s type column, unpacked from `src + hdr.off_type`. -/
def decode_types_col (hdr : BlockHeader) (src : List Nat) : List Nat :=
  bitunpack_u8 (src.drop hdr.off_type) hdr.n_rows

/-- `decode_block`'s consumed-bytes computation `end_off`. -/
def decode_end (hdr : BlockHeader) : Nat :=
  max (max (max (max (hdr.off_ts + hdr.len_ts) (hdr.off_px + hdr.len_px))
    (hdr.off_sz + hdr.len_sz)) (hdr.off_side + hdr.len_side))
    (hdr.off_type + hdr.len_type)

/-- The column-decoding part of `decode_block` (reached when the magic matched
and `n_rows != 0`). -/
def decode_cols (hdr : BlockHeader) (src : List Nat) :
    Except String (List TradeRow × Nat) :=
  match (List.range hdr.n_rows).mapM
      (decodeRow hdr src (decode_ts hdr src) (decode_px hdr src)
        (decode_sides_col hdr src) (decode_types_col hdr src)) with
  | Except.error e => Except.error e
  | Except.ok rs => Except.ok (rs, max (decode_end hdr) HDR_SIZE)

/-- The header checks of `decode_block` after the size guard. -/
def decode_body (hdr : BlockHeader) (src : List Nat) :
    Except String (List TradeRow × Nat) :=
  if ¬ check_magic hdr then Except.error "block magic incorrect"
  else if hdr.n_rows = 0 then Except.ok ([], HDR_SIZE)
  else decode_cols hdr src

/-- `L2TBlockCodec::decode_block`: returns the decoded rows and the consumed
byte count, or raises.  Faithful to the source, the price column is unpacked
from `src + hdr.len_px` (not `off_px`). -/
def decode_block (src : List Nat) : Except String (List TradeRow × Nat) :=
  if src.length < HDR_SIZE then Except.error "block too small"
  else decode_body (deserializeHeader src) src

/-- Concrete input for the side/type round trip: a side outside {0,1} (3) and
both type values (84 = T and a non-T byte). -/
def c10rows : List TradeRow :=
  [{ ts_ns := 5, price := 100, size := 7, side := 3, type := 84 },
   { ts_ns := 1000005, price := 101, size := 8, side := 0, type := 65 }]

/-- Concrete input for the block round trip: two rows whose prices differ. -/
def c1rows : List TradeRow :=
  [{ ts_ns := 0, price := 100, size := 0, side := 0, type := 76 },
   { ts_ns := 0, price := 101, size := 0, side := 0, type := 76 }]

/-- Concrete crafted block: zero magic, `n_rows = 1`, `base_px = 0`, `ts_bw = 0`,
`px_bw = 1`, `len_px = 76`, and one payload byte `1` at offset 76, so the
decoded price delta is `zigzag_dec32 1 = -1` and the reconstructed price
`base_px + dx = -1` lies outside the u32 range. -/
def c6src : List Nat :=
  serializeHeader { version := 1, n_rows := 1, base_px := 0, ts_bw := 0,
                    px_bw := 1, len_px := 76 } ++ [1]

/-! ## Schema registry and `ColFileHeaderT` layout (src/schemas.h) -/

/-- Column counts of the five registered schemas. -/
def L2_COLS : Nat := 4
def L3_COLS : Nat := 6
def Imbalance_COLS : Nat := 2
def Vwap_COLS : Nat := 2
def Voi_COLS : Nat := 3

/-- Round `x` up to a multiple of the (positive) alignment `a`. -/
def alignUp (x a : Nat) : Nat := (x + a - 1) / a * a

/-- The size of a C struct with the given `(alignment, size)` fields laid out
in order, given the struct's declared minimum alignment (from `alignas`):
each field starts at its alignment, and the total size is rounded up to the
struct alignment. -/
def structLayoutSize (align0 : Nat) (fields : List (Nat × Nat)) : Nat :=
  let fin := fields.foldl (fun (p : Nat × Nat) f => (alignUp p.1 f.1 + f.2, max p.2 f.1)) (0, align0)
  alignUp fin.1 fin.2

/-- The fields of `ColFileHeaderT<Schema>` for a schema with `C` columns, as
`(alignment, size)` pairs: `char magic[6]`, `uint16 header_size`, `uint16
version`, `uint16 pad16`, `uint32 _pad32`, `char product[16]`,
`uint64 hour_epoch_start`, `uint64 rows`, `uint64 capacity`,
`uint64 col_off[C]`, `uint64 col_sz[C]`, and the trailing
`uint8 pad[256 - 6-2-2-2-4-16-8-8-8 - 8*C - 8*C]`. -/
def colFileHeaderFields (C : Nat) : List (Nat × Nat) :=
  [(1, 6), (2, 2), (2, 2), (2, 2), (4, 4), (1, 16), (8, 8), (8, 8), (8, 8),
   (8, 8 * C), (8, 8 * C),
   (1, 256 - 6 - 2 - 2 - 2 - 4 - 16 - 8 - 8 - 8 - 8 * C - 8 * C)]

/-- `sizeof(ColFileHeaderT<Schema>)` for a schema with `C` columns
(`alignas(64)` on the struct). -/
def sizeofColFileHeader (C : Nat) : Nat :=
  structLayoutSize 64 (colFileHeaderFields C)

/-! ## Columnar writer: byte-level day-file model for `grow_file` (L2 schema)

The file is modelled as a write log of `(address, byte)` pairs; unwritten
addresses read 0, matching `posix_fallocate`'s zero extension of a fresh file. -/

/-- `L2Row` from src/schemas.h (`qty` is the u32 bit pattern of the f32). -/
structure L2Row where
  ts_ns : Nat
  price : Nat
  qty : Nat
  side : Nat
  deriving DecidableEq

/-- Most recent write wins; unwritten bytes are 0. -/
def logRead (mem : List (Nat × Nat)) (addr : Nat) : Nat :=
  ((mem.find? (fun p => p.1 == addr)).map (fun p => p.2)).getD 0

/-- Write consecutive bytes starting at `addr` (later writes shadow earlier). -/
def logWriteBytes (mem : List (Nat × Nat)) (addr : Nat) (bs : List Nat) : List (Nat × Nat) :=
  (bs.enum.map (fun p => (addr + p.1, p.2))) ++ mem

/-- Read `w` consecutive bytes at `addr`. -/
def logReadBytes (mem : List (Nat × Nat)) (addr w : Nat) : List Nat :=
  (List.range w).map (fun i => logRead mem (addr + i))

/-- `L2Schema::col_size`. -/
def l2ColSize : Nat → Nat
  | 0 => 8
  | 1 => 4
  | 2 => 4
  | _ => 1

/-- The writer's open L2 day file: capacity, per-column base offsets (the
in-file counterpart of `col_ptrs_`), the mapped bytes, and the row counter. -/
structure ColFile where
  capacity : Nat
  col_off : List Nat
  mem : List (Nat × Nat)
  rows : Nat
  deriving DecidableEq

/-- The offset loop shared by `open_day_file` and `grow_file`:
`off = HEADER_SZ; for i: col_off[i] = off; off += capacity * col_size(i)`. -/
def l2Offsets (capacity : Nat) : List Nat :=
  (List.range 4).map
    (fun i => 256 + (List.range i).foldl (fun a j => a + capacity * l2ColSize j) 0)

/-- `WriterT::open_day_file` (success path, file bytes fresh):
`capacity_ = rows_per_hr * 2 = 2^25`, offsets computed, `rows_ = 0`. -/
def open_day_file_l2 : ColFile :=
  { capacity := 2 ^ 24 * 2, col_off := l2Offsets (2 ^ 24 * 2), mem := [], rows := 0 }

/-- `L2Schema::write_row_to_cols` at logical index `idx`: each field is stored
at `col_off[i] + idx * col_size(i)`. -/
def write_row_to_cols_l2 (f : ColFile) (r : L2Row) (idx : Nat) : ColFile :=
  let m1 := logWriteBytes f.mem (f.col_off.getD 0 0 + idx * 8) (leBytes 8 r.ts_ns)
  let m2 := logWriteBytes m1 (f.col_off.getD 1 0 + idx * 4) (leBytes 4 r.price)
  let m3 := logWriteBytes m2 (f.col_off.getD 2 0 + idx * 4) (leBytes 4 r.qty)
  let m4 := logWriteBytes m3 (f.col_off.getD 3 0 + idx * 1) (leBytes 1 r.side)
  { f with mem := m4 }

/-- One accepted row in `WriterT::run`: `idx = rows_.fetch_add(1)` then
`write_row_to_cols`. -/
def appendRow_l2 (f : ColFile) (r : L2Row) : ColFile :=
  { write_row_to_cols_l2 f r f.rows with rows := f.rows + 1 }

/-- `WriterT::grow_file` (success path): double the capacity, recompute the
column offsets with the same loop, remap.  `posix_fallocate` only extends the
file, so the mapped bytes are unchanged; the row counter is not touched.
(The header memcpy rewrites bytes [0, 256), below every column region.) -/
def grow_file_l2 (f : ColFile) : ColFile :=
  let ncap := f.capacity * 2
  { f with capacity := ncap, col_off := l2Offsets ncap }

/-- Reading column `i` at logical index `j` through the current base offsets. -/
def readCol_l2 (f : ColFile) (i j : Nat) : List Nat :=
  logReadBytes f.mem (f.col_off.getD i 0 + j * l2ColSize i) (l2ColSize i)

/-- Concrete state for the grow claim: a fresh day file with one written row. -/
def c3row : L2Row := { ts_ns := 0, price := 100, qty := 0, side := 1 }
def c3before : ColFile := appendRow_l2 open_day_file_l2 c3row
def c3after : ColFile := grow_file_l2 c3before

/-! ## Columnar writer: control-flow model of `WriterT::run` (rotation / drop)

Environment oracles stand for the success of the syscall sequences in
`open_day_file` (mkdir/open/fallocate/mmap) and `grow_file` (fallocate/mmap),
indexed by attempt number. -/

structure WEnv where
  openOk : Nat → Bool
  growOk : Nat → Bool

/-- Writer-thread state: `day_start_` (`~0ull` sentinel initially), the atomic
`rows_` and `dropped_` counters, `capacity_` (member-initialized to
`rows_per_hr = 2^24`), whether a file is mapped (`base_ != nullptr`), the
number of open / grow attempts made, and a log of the `write_row_to_cols`
calls as (file-open?, day_start, idx, row). -/
structure WriterState where
  day_start : Nat := 2 ^ 64 - 1
  rows : Nat := 0
  dropped : Nat := 0
  capacity : Nat := 2 ^ 24
  is_open : Bool := false
  opens : Nat := 0
  grows : Nat := 0
  log : List (Bool × Nat × Nat × L2Row) := []
  deriving DecidableEq

/-- `L2Schema::hour_from_row`. -/
def hour_from_row (r : L2Row) : Nat :=
  r.ts_ns / 1000000000 / 3600 * 3600

/-- `WriterT::day_from_hour`. -/
def day_from_hour (h : Nat) : Nat := h - h % 86400

/-- The partition day of a row. -/
def dayOfRow (r : L2Row) : Nat := day_from_hour (hour_from_row r)

/-- `WriterT::close_file`: no-op when no mapping; otherwise unmap and reset
the row counter. -/
def wclose_file (s : WriterState) : WriterState :=
  if s.is_open then { s with is_open := false, rows := 0 } else s

/-- `WriterT::open_day_file`: sets `capacity_ = rows_per_hr * 2` first; on any
of the mkdir/open/fallocate/mmap failures returns false with no mapping; on
success the file is mapped and `rows_` is reset to 0. -/
def wopen_day_file (env : WEnv) (s : WriterState) : Bool × WriterState :=
  let s1 := { s with capacity := 2 ^ 24 * 2, opens := s.opens + 1 }
  if env.openOk s.opens then
    (true, { s1 with is_open := true, rows := 0 })
  else
    (false, s1)

/-- `WriterT::rotate_to_day`: note `day_start_ = day_s` is assigned **before**
`open_day_file` runs. -/
def rotate_to_day (env : WEnv) (s : WriterState) (day_s : Nat) : Bool × WriterState :=
  if s.day_start = day_s then (true, s)
  else
    let s1 := wclose_file s
    let s2 := { s1 with day_start := day_s }
    wopen_day_file env s2

/-- `WriterT::grow_file` as seen by the run loop: on failure nothing else
changes; on success the capacity doubles. -/
def wgrow_file (env : WEnv) (s : WriterState) : Bool × WriterState :=
  let s1 := { s with grows := s.grows + 1 }
  if env.growOk s.grows then (true, { s1 with capacity := s1.capacity * 2 })
  else (false, s1)

/-- The body of `WriterT::run` for one dequeued row: rotate if the partition
day changed (drop the row if rotation fails), reserve `idx = rows_.fetch_add(1)`,
grow on overflow (clamp `rows_` back and drop on failure), then
`write_row_to_cols(row, col_ptrs_, idx)` unconditionally. -/
def writerStep (env : WEnv) (s : WriterState) (row : L2Row) : WriterState :=
  let d := dayOfRow row
  let rot : Bool × WriterState :=
    if d ≠ s.day_start then rotate_to_day env s d else (true, s)
  if rot.1 then
    let s1 := rot.2
    let idx := s1.rows
    let s2 := { s1 with rows := s1.rows + 1 }
    if idx ≥ s2.capacity then
      let gr := wgrow_file env s2
      if gr.1 then
        { gr.2 with log := (gr.2.is_open, gr.2.day_start, idx, row) :: gr.2.log }
      else
        { gr.2 with rows := gr.2.capacity, dropped := gr.2.dropped + 1 }
    else
      { s2 with log := (s2.is_open, s2.day_start, idx, row) :: s2.log }
  else
    { rot.2 with dropped := rot.2.dropped + 1 }

/-- Drain a sequence of dequeued rows. -/
def runWriter (env : WEnv) (rows : List L2Row) : WriterState :=
  rows.foldl (writerStep env) {}

/-- Environment whose first day-file open fails and all later syscalls succeed. -/
def c4env : WEnv := { openOk := fun i => decide (i ≠ 0), growOk := fun _ => true }
def c4row1 : L2Row := { ts_ns := 0, price := 10, qty := 0, side := 1 }
def c4row2 : L2Row := { ts_ns := 1000, price := 11, qty := 0, side := 0 }

/-- Environment where every syscall succeeds. -/
def c5env : WEnv := { openOk := fun _ => true, growOk := fun _ => true }
def c5rowD1 : L2Row := { ts_ns := 86400 * 1000000000, price := 10, qty := 0, side := 1 }
def c5rowD0 : L2Row := { ts_ns := 0, price := 11, qty := 0, side := 0 }

/-! ## Block writer / block reader file enumeration (src/block_writer.h,
src/block_reader.h)

The filesystem is a list of directory entries (directory path, file name,
regular?); names and paths are `List Char`. -/

structure DirEntry where
  dir : List Char
  name : List Char
  regular : Bool
  deriving DecidableEq

/-- `BlockWriterT::date_string`: `snprintf("%08u", yyyymmdd)` (values < 10^8). -/
def date_string8 (d : Nat) : List Char :=
  let s := Nat.toDigits 10 d
  List.replicate (8 - s.length) '0' ++ s

/-- The directory the block writer creates:
`opt_.base_dir + "/" + opt_.product + "-BLOCKS"`. -/
def blockWriterDir (base product : List Char) : List Char :=
  base ++ [ '/' ] ++ product ++ String.toList "-BLOCKS"

/-- The file the block writer opens for a day: `date_string(yyyymmdd) + ".blocks"`. -/
def blockWriterFileName (yyyymmdd : Nat) : List Char :=
  date_string8 yyyymmdd ++ String.toList ".blocks"

/-- The directory entry `BlockWriterT::open_day_file(yyyymmdd)` creates. -/
def blockWriterEntry (base product : List Char) (yyyymmdd : Nat) : DirEntry :=
  { dir := blockWriterDir base product, name := blockWriterFileName yyyymmdd,
    regular := true }

/-- `std::filesystem::path::extension` for a file name with a non-leading dot:
the suffix starting at the last `.` (empty when there is no dot). -/
def extensionOf (name : List Char) : List Char :=
  if name.contains '.' then
    '.' :: (name.reverse.takeWhile (fun c => ¬ (c = '.'))).reverse
  else []

/-- `BlockReaderT::parse_yyyymmdd`: requires at least 12 characters, takes the
8 characters starting 12 from the end, and `from_chars` over all 8 of them
(success only when all are digits; 8 decimal digits never overflow u32). -/
def parse_yyyymmdd (name : List Char) : Option Nat :=
  if name.length < 12 then none
  else
    let stem := (name.drop (name.length - 12)).take 8
    if stem.all (fun c => decide ('0' ≤ c) && decide (c ≤ '9')) then
      some (stem.foldl (fun a c => a * 10 + (c.toNat - 48)) 0)
    else none

/-- Insert into a date-sorted list (model of `std::sort` with the
`a.yyyymmdd < b.yyyymmdd` comparator; dates of distinct day files differ, so
stability is irrelevant). -/
def insertByDate (x : Nat × List Char) : List (Nat × List Char) → List (Nat × List Char)
  | [] => [x]
  | y :: ys => if x.1 < y.1 then x :: y :: ys else y :: insertByDate x ys

/-- Sort day files ascending by date. -/
def sortByDate (l : List (Nat × List Char)) : List (Nat × List Char) :=
  l.foldr insertByDate []

/-- `BlockReaderT::build_day_file_list`: iterate the entries of
`base_dir / product`, keep regular files with extension `.bin` whose parsed
date lies in `[date_from, date_to]`, and sort ascending by date. -/
def build_day_file_list (fsEntries : List DirEntry) (base product : List Char)
    (date_from date_to : Nat) : List (Nat × List Char) :=
  let dir := base ++ [ '/' ] ++ product
  let files := fsEntries.filterMap (fun e =>
    if e.dir = dir then
      if e.regular then
        if extensionOf e.name = String.toList ".bin" then
          match parse_yyyymmdd e.name with
          | some d =>
            if d < date_from ∨ d > date_to then none
            else some (d, e.name)
          | none => none
        else none
      else none
    else none)
  sortByDate files

/-! # Theorems -/

/-! ## Bit-arithmetic helpers -/

theorem or_disjoint {k a : Nat} (ha : a < 2 ^ k) (b : Nat) :
    a ||| b * 2 ^ k = a + b * 2 ^ k := by
  have h := Nat.mul_add_lt_is_or ha b
  rw [Nat.or_comm] at h
  rw [Nat.mul_comm b (2 ^ k)]
  omega

theorem xor_all_ones {k a : Nat} (ha : a < 2 ^ k) :
    a ^^^ (2 ^ k - 1) = 2 ^ k - 1 - a := by
  induction k generalizing a with
  | zero =>
    have : a = 0 := by omega
    subst this
    simp
  | succ k ih =>
    have h2 : (2 : Nat) ^ (k + 1) = 2 * 2 ^ k := by ring
    have hq : a / 2 < 2 ^ k := by omega
    have hpos : 1 ≤ 2 ^ k := Nat.one_le_two_pow
    have hd : (a ^^^ (2 ^ (k + 1) - 1)) / 2 = a / 2 ^^^ (2 ^ k - 1) := by
      rw [Nat.xor_div_two]
      congr 1
      omega
    have hfodd : (2 ^ (k + 1) - 1) % 2 = 1 := by omega
    have hm : (a ^^^ (2 ^ (k + 1) - 1)) % 2 = 1 - a % 2 := by
      rcases Nat.mod_two_eq_zero_or_one a with h | h
      · have h1 : (a ^^^ (2 ^ (k + 1) - 1)) % 2 = 1 := by
          rw [Nat.xor_mod_two_eq_one]
          simp [h, hfodd]
        omega
      · have h1 : ¬ (a ^^^ (2 ^ (k + 1) - 1)) % 2 = 1 := by
          rw [Nat.xor_mod_two_eq_one]
          simp [h, hfodd]
        have h0 := Nat.mod_two_eq_zero_or_one (a ^^^ (2 ^ (k + 1) - 1))
        omega
    have hsplit := Nat.div_add_mod (a ^^^ (2 ^ (k + 1) - 1)) 2
    have hihq := ih hq
    have hasplit := Nat.div_add_mod a 2
    omega

theorem shiftLeft_one (a : Nat) : a <<< 1 = 2 * a := by
  rw [Nat.shiftLeft_eq]
  ring

theorem shiftRight_one (a : Nat) : a >>> 1 = a / 2 := by
  rw [Nat.shiftRight_eq_div_pow]

/-! ## Claim C9: every registered schema's column-file header is 256 bytes -/

/-- Claim C9: for each schema in the registry (L2 with 4 columns, L3 with 6,
Imbalance with 2, VWAP with 2, VOI with 3), `sizeof(ColFileHeaderT<Schema>)`
is exactly 256 bytes, the trailing pad `256 - 54 - 16·C` absorbing the
`16·C` bytes of the per-column offset and size arrays. -/
theorem C9_header_size_256 :
    sizeofColFileHeader L2_COLS = 256 ∧
    sizeofColFileHeader L3_COLS = 256 ∧
    sizeofColFileHeader Imbalance_COLS = 256 ∧
    sizeofColFileHeader Vwap_COLS = 256 ∧
    sizeofColFileHeader Voi_COLS = 256 := by
  decide

/-! ## Claim C3: `grow_file` does not preserve the rows already written -/

/-- Claim C3 (code bug): after `grow_file()` on an L2 day file holding one row
(price 100, side 1), reading the price column at index 0 through the new
column base offsets no longer yields the row's bytes: the offsets are
recomputed for the doubled capacity while `posix_fallocate` leaves the file
bytes in place, so the new price pointer lands on the old side column.
The row counter itself is unchanged, as the claim states. -/
theorem C3_grow_moves_pointers_not_data :
    readCol_l2 c3before 1 0 = [100, 0, 0, 0] ∧
    readCol_l2 c3after 1 0 = [1, 0, 0, 0] ∧
    c3after.rows = c3before.rows := by
  decide

/-! ## Claim C4: rows after a failed day rotation are not dropped or retried -/

/-- Claim C4 (code bug): with the first day-file open failing, the row that
triggered the rotation is dropped, but because `rotate_to_day` assigned
`day_start_` before `open_day_file` ran, the next row of the same day skips
rotation entirely: the open is not retried (`opens` stays 1), the row is not
dropped (`dropped` stays 1), the row counter advances, and
`write_row_to_cols` runs against the closed file's null column pointers
(logged as a write with `is_open = false`). -/
theorem C4_failed_rotation_not_retried :
    (runWriter c4env [c4row1, c4row2]).dropped = 1 ∧
    (runWriter c4env [c4row1, c4row2]).opens = 1 ∧
    (runWriter c4env [c4row1, c4row2]).rows = 1 ∧
    (runWriter c4env [c4row1, c4row2]).log = [(false, 0, 0, c4row2)] := by
  decide

/-! ## Claim C2: the block reader never sees the block writer's files -/

/-- Claim C2 (code bug): the block writer creates
`<base>/<product>-BLOCKS/20240102.blocks`, whose date 20240102 lies inside the
reader's `[20240101, 20240103]` range, yet `build_day_file_list` (which scans
`<base>/<product>` for regular `*.bin` files) returns the empty list: the
writer's file is never visited. -/
theorem C2_reader_misses_writer_files :
    build_day_file_list [blockWriterEntry (String.toList "b") (String.toList "P") 20240102]
      (String.toList "b") (String.toList "P") 20240101 20240103 = [] ∧
    (blockWriterEntry (String.toList "b") (String.toList "P") 20240102).name =
      String.toList "20240102.blocks" := by
  decide

/-! ## Claim C8: zigzag round trip -/

/-- Claim C8: for every 32-bit signed integer `v` (i.e. `-2^31 ≤ v < 2^31`),
`zigzag_dec32 (zigzag_enc32 v) = v`. -/
theorem C8_zigzag_roundtrip (v : Int) (hlo : -(2 ^ 31) ≤ v) (hhi : v < 2 ^ 31) :
    zigzag_dec32 (zigzag_enc32 v) = v := by
  rcases le_or_lt 0 v with hv | hv
  · -- non-negative: the encoding is 2·v
    obtain ⟨n, rfl⟩ : ∃ n : Nat, v = (n : Int) := ⟨v.toNat, (Int.toNat_of_nonneg hv).symm⟩
    have hn : n < 2 ^ 31 := by exact_mod_cast hhi
    have hu : u32ofInt (n : Int) = n := by
      unfold u32ofInt
      omega
    have hsh : ((n : Int) >>> 31) = ((n >>> 31 : Nat) : Int) := rfl
    have hn31 : n >>> 31 = 0 := by
      rw [Nat.shiftRight_eq_div_pow]
      omega
    have hu0 : u32ofInt ((0 : Nat) : Int) = 0 := by
      unfold u32ofInt
      omega
    have henc : zigzag_enc32 (n : Int) = 2 * n := by
      unfold zigzag_enc32
      rw [hsh, hn31, hu0, hu, Nat.xor_zero, shiftLeft_one]
      omega
    rw [henc]
    unfold zigzag_dec32
    have h1 : 2 * n &&& 1 = 0 := by
      rw [Nat.and_one_is_mod]
      omega
    rw [h1, shiftRight_one]
    have h2 : ((2 : Nat) ^ 32 - 0) % 2 ^ 32 = 0 := by omega
    rw [h2, Nat.xor_zero]
    have h3 : 2 * n / 2 = n := by omega
    rw [h3]
    unfold i32ofU32
    rw [if_pos (by omega : n < 2 ^ 31)]
  · -- negative: with m := -v ∈ [1, 2^31], the encoding is 2·m - 1
    obtain ⟨m, hm1, hm2, rfl⟩ :
        ∃ m : Nat, 1 ≤ m ∧ m ≤ 2 ^ 31 ∧ v = -(m : Int) := by
      refine ⟨(-v).toNat, by omega, by omega, by omega⟩
    have hvs : -((m : Nat) : Int) = Int.negSucc (m - 1) := by
      rw [Int.negSucc_eq]
      omega
    have hu : u32ofInt (-(m : Int)) = 2 ^ 32 - m := by
      unfold u32ofInt
      omega
    have hsh : (-((m : Nat) : Int)) >>> 31 = Int.negSucc ((m - 1) >>> 31) := by
      rw [hvs]
      rfl
    have hm31 : (m - 1) >>> 31 = 0 := by
      rw [Nat.shiftRight_eq_div_pow]
      omega
    have hneg1 : Int.negSucc 0 = -1 := rfl
    have huneg : u32ofInt (-1) = 2 ^ 32 - 1 := by
      unfold u32ofInt
      omega
    have hE : ((2 ^ 32 - m) <<< 1) % 2 ^ 32 = 2 ^ 32 - 2 * m := by
      rw [shiftLeft_one]
      omega
    have henc : zigzag_enc32 (-(m : Int)) = 2 * m - 1 := by
      unfold zigzag_enc32
      rw [hsh, hm31, hneg1, huneg, hu, hE,
        xor_all_ones (by omega : 2 ^ 32 - 2 * m < 2 ^ 32)]
      omega
    rw [henc]
    unfold zigzag_dec32
    have h1 : 2 * m - 1 &&& 1 = 1 := by
      rw [Nat.and_one_is_mod]
      omega
    rw [h1, shiftRight_one]
    have h2 : ((2 : Nat) ^ 32 - 1) % 2 ^ 32 = 2 ^ 32 - 1 := by omega
    have h3 : (2 * m - 1) / 2 = m - 1 := by omega
    rw [h2, h3, xor_all_ones (by omega : m - 1 < 2 ^ 32)]
    unfold i32ofU32
    rw [if_neg (by omega : ¬ 2 ^ 32 - 1 - (m - 1) < 2 ^ 31)]
    omega

/-- Witness for C8 at `v = -5`. -/
theorem C8_zigzag_roundtrip_witness :
    -(2 ^ 31) ≤ (-5 : Int) ∧ (-5 : Int) < 2 ^ 31 ∧
    zigzag_dec32 (zigzag_enc32 (-5)) = -5 :=
  ⟨by decide, by decide, C8_zigzag_roundtrip (-5) (by decide) (by decide)⟩

/-! ## Claim C5: out-of-order (earlier-day) rows do trigger a rotation -/

/-- Claim C5 is false as stated: an earlier-day row is not written into the
currently open day file; `run` rotates on any day change.  Concretely, after
a day-86400 row opens that day's file, a day-0 row closes it, opens the day-0
file (a second open attempt) and is written there at index 0. -/
theorem C5_counterexample :
    dayOfRow c5rowD0 < (runWriter c5env [c5rowD1]).day_start ∧
    (runWriter c5env [c5rowD1, c5rowD0]).day_start = 0 ∧
    (runWriter c5env [c5rowD1, c5rowD0]).opens = 2 ∧
    (runWriter c5env [c5rowD1, c5rowD0]).log.head? = some (true, 0, 0, c5rowD0) := by
  decide

/-- Claim C5 (amended): a dequeued row whose partition day is strictly earlier
than the currently open day triggers a rotation to that earlier day — the
current file is closed and the earlier day's file is opened — and (when the
open succeeds) the row is written at index 0 of the newly opened earlier-day
file, not into the previously open day file. -/
theorem C5_backward_rotation (env : WEnv) (s : WriterState) (r : L2Row)
    (hlt : dayOfRow r < s.day_start) (hok : env.openOk s.opens = true) :
    (writerStep env s r).day_start = dayOfRow r ∧
    (writerStep env s r).opens = s.opens + 1 ∧
    (writerStep env s r).log = (true, dayOfRow r, 0, r) :: s.log := by
  have hne : dayOfRow r ≠ s.day_start := Nat.ne_of_lt hlt
  have hne2 : s.day_start ≠ dayOfRow r := Ne.symm hne
  have hcap : ¬ (0 ≥ 2 ^ 24 * 2) := by decide
  cases hopen : s.is_open with
  | false =>
    simp [writerStep, rotate_to_day, wclose_file, wopen_day_file, hne, hne2, hok, hopen, hcap]
  | true =>
    simp [writerStep, rotate_to_day, wclose_file, wopen_day_file, hne, hne2, hok, hopen, hcap]

/-- Witness for C5 at the concrete post-day-86400 state and a day-0 row. -/
theorem C5_backward_rotation_witness :
    dayOfRow c5rowD0 < (runWriter c5env [c5rowD1]).day_start ∧
    c5env.openOk (runWriter c5env [c5rowD1]).opens = true ∧
    (writerStep c5env (runWriter c5env [c5rowD1]) c5rowD0).day_start = dayOfRow c5rowD0 :=
  ⟨by decide, by decide,
    (C5_backward_rotation c5env (runWriter c5env [c5rowD1]) c5rowD0
      (by decide) (by decide)).1⟩

/-! ## Byte-stream value lemmas -/

theorem bytesToNat_append (xs ys : List Nat) :
    bytesToNat (xs ++ ys) = bytesToNat xs + 256 ^ xs.length * bytesToNat ys := by
  induction xs with
  | nil => simp [bytesToNat]
  | cons b bs ih =>
    show b + 256 * bytesToNat (bs ++ ys) =
      b + 256 * bytesToNat bs + 256 ^ (bs.length + 1) * bytesToNat ys
    rw [ih, pow_succ]
    ring

theorem bytesToNat_lt {bs : List Nat} (h : ∀ b ∈ bs, b < 256) :
    bytesToNat bs < 256 ^ bs.length := by
  induction bs with
  | nil => simp [bytesToNat]
  | cons b t ih =>
    have hb : b < 256 := h b (List.mem_cons_self b t)
    have ht := ih (fun x hx => h x (List.mem_cons_of_mem b hx))
    simp only [bytesToNat, List.length_cons, pow_succ]
    calc b + 256 * bytesToNat t < 256 + 256 * bytesToNat t := by omega
      _ = 256 * (bytesToNat t + 1) := by ring
      _ ≤ 256 * 256 ^ t.length := by
          have : bytesToNat t + 1 ≤ 256 ^ t.length := ht
          exact Nat.mul_le_mul_left 256 this
      _ = 256 ^ t.length * 256 := by ring

theorem bytesToNat_getD {bs : List Nat} (h : ∀ b ∈ bs, b < 256) :
    ∀ i, bs.getD i 0 = bytesToNat bs / 256 ^ i % 256 := by
  induction bs with
  | nil =>
    intro i
    simp [bytesToNat]
  | cons b t ih =>
    intro i
    have hb : b < 256 := h b (List.mem_cons_self b t)
    have ht : ∀ x ∈ t, x < 256 := fun x hx => h x (List.mem_cons_of_mem b hx)
    cases i with
    | zero =>
      rw [List.getD_cons_zero]
      show b = (b + 256 * bytesToNat t) / 256 ^ 0 % 256
      simp only [pow_zero, Nat.div_one]
      omega
    | succ i =>
      have hdiv : bytesToNat (b :: t) / 256 ^ (i + 1) = bytesToNat t / 256 ^ i := by
        show (b + 256 * bytesToNat t) / 256 ^ (i + 1) = _
        rw [pow_succ, Nat.mul_comm (256 ^ i) 256, ← Nat.div_div_eq_div_mul]
        congr 1
        omega
      rw [List.getD_cons_succ, hdiv]
      exact ih ht i

theorem natDigits_valsToNat (bw : Nat) :
    ∀ xs : List Nat, (∀ x ∈ xs, x < 2 ^ bw) →
      natDigits bw (valsToNat bw xs) xs.length = xs := by
  intro xs
  induction xs with
  | nil => intro _; rfl
  | cons v vs ih =>
    intro h
    have hv : v < 2 ^ bw := h v (List.mem_cons_self v vs)
    have hmod : valsToNat bw (v :: vs) % 2 ^ bw = v := by
      show (v + 2 ^ bw * valsToNat bw vs) % 2 ^ bw = v
      rw [Nat.add_mul_mod_self_left]
      exact Nat.mod_eq_of_lt hv
    have hdiv : valsToNat bw (v :: vs) / 2 ^ bw = valsToNat bw vs := by
      show (v + 2 ^ bw * valsToNat bw vs) / 2 ^ bw = valsToNat bw vs
      rw [Nat.add_mul_div_left _ _ (Nat.pos_pow_of_pos bw (by norm_num))]
      rw [Nat.div_eq_of_lt hv]
      omega
    show natDigits bw (valsToNat bw (v :: vs)) (vs.length + 1) = v :: vs
    rw [natDigits, hmod, hdiv, ih (fun x hx => h x (List.mem_cons_of_mem v hx))]

/-- The masks the pack/unpack wrappers compute all equal `2^bw - 1` (the
`bw == 64` / `bw == 32` special cases only dodge the C++ undefined shift). -/
theorem mask64_eq (bw : Nat) :
    (if bw = 64 then 2 ^ 64 - 1 else (1 <<< bw) - 1) = 2 ^ bw - 1 := by
  split
  next h64 => rw [h64]
  next => rw [Nat.shiftLeft_eq, one_mul]

theorem mask32_eq (bw : Nat) :
    (if bw = 32 then 2 ^ 32 - 1 else (1 <<< bw) - 1) = 2 ^ bw - 1 := by
  split
  next h32 => rw [h32]
  next => rw [Nat.shiftLeft_eq, one_mul]

/-! ## The packing loop emits the base-256 digits of the packed value -/

theorem packDrainF_spec : ∀ fuel bits acc : Nat, bits ≤ fuel →
    bytesToNat (packDrainF fuel acc bits).1 = acc % 2 ^ (8 * (bits / 8)) ∧
    (packDrainF fuel acc bits).2.1 = acc / 2 ^ (8 * (bits / 8)) ∧
    (packDrainF fuel acc bits).2.2 = bits % 8 ∧
    (∀ b ∈ (packDrainF fuel acc bits).1, b < 256) ∧
    (packDrainF fuel acc bits).1.length = bits / 8 := by
  intro fuel
  induction fuel with
  | zero =>
    intro bits acc hle
    have hb : bits = 0 := by omega
    subst hb
    refine ⟨?_, ?_, rfl, ?_, rfl⟩
    · show (0 : Nat) = acc % 2 ^ (8 * (0 / 8))
      omega
    · show acc = acc / 2 ^ (8 * (0 / 8))
      omega
    · intro b hb
      simp [packDrainF] at hb
  | succ fuel ih =>
    intro bits acc hle
    have hunf : packDrainF (fuel + 1) acc bits =
        if 8 ≤ bits then
          ((acc &&& 255) :: (packDrainF fuel (acc >>> 8) (bits - 8)).1,
            (packDrainF fuel (acc >>> 8) (bits - 8)).2)
        else ([], acc, bits) := rfl
    rw [hunf]
    by_cases h : 8 ≤ bits
    · rw [if_pos h]
      obtain ⟨h1, h2, h3, h4, h5⟩ := ih (bits - 8) (acc >>> 8) (by omega)
      have hsr : acc >>> 8 = acc / 256 := by
        rw [Nat.shiftRight_eq_div_pow]
      have hand : acc &&& 255 = acc % 256 := Nat.and_pow_two_sub_one_eq_mod acc 8
      have hq : bits / 8 = (bits - 8) / 8 + 1 := by omega
      have hpow : (2 : Nat) ^ (8 * ((bits - 8) / 8 + 1)) =
          256 * 2 ^ (8 * ((bits - 8) / 8)) := by
        rw [Nat.mul_add, Nat.mul_one, pow_add]
        ring
      refine ⟨?_, ?_, ?_, ?_, ?_⟩
      · show (acc &&& 255) + 256 * bytesToNat (packDrainF fuel (acc >>> 8) (bits - 8)).1 = _
        rw [h1, hsr, hand, hq, hpow, Nat.mod_mul]
      · show (packDrainF fuel (acc >>> 8) (bits - 8)).2.1 = _
        rw [h2, hsr, Nat.div_div_eq_div_mul, hq, hpow]
      · show (packDrainF fuel (acc >>> 8) (bits - 8)).2.2 = bits % 8
        rw [h3]
        omega
      · intro b hb
        rcases List.mem_cons.mp hb with hb | hb
        · rw [hb, hand]; omega
        · exact h4 b hb
      · show (packDrainF fuel (acc >>> 8) (bits - 8)).1.length + 1 = bits / 8
        rw [h5]
        omega
    · rw [if_neg h]
      have hq : bits / 8 = 0 := by omega
      refine ⟨?_, ?_, ?_, ?_, ?_⟩
      · show bytesToNat [] = acc % 2 ^ (8 * (bits / 8))
        rw [hq]
        show (0 : Nat) = acc % 2 ^ (8 * 0)
        omega
      · show acc = acc / 2 ^ (8 * (bits / 8))
        rw [hq]
        simp
      · show bits = bits % 8
        omega
      · intro b hb
        simp at hb
      · show (0 : Nat) = bits / 8
        omega

theorem packDrain_spec : ∀ bits acc : Nat,
    bytesToNat (packDrain acc bits).1 = acc % 2 ^ (8 * (bits / 8)) ∧
    (packDrain acc bits).2.1 = acc / 2 ^ (8 * (bits / 8)) ∧
    (packDrain acc bits).2.2 = bits % 8 ∧
    (∀ b ∈ (packDrain acc bits).1, b < 256) ∧
    (packDrain acc bits).1.length = bits / 8 :=
  fun bits acc => packDrainF_spec bits bits acc (le_refl bits)

theorem packLoop_spec (bw : Nat) (hbw : 1 ≤ bw)
    (hsafe : bw + 8 - Nat.gcd bw 8 ≤ 64) :
    ∀ (vs : List Nat) (acc bits : Nat), acc < 2 ^ bits → bits < 8 →
      Nat.gcd bw 8 ∣ bits → (∀ v ∈ vs, v < 2 ^ bw) →
      bytesToNat (packLoop (2 ^ bw - 1) bw vs acc bits) =
        acc + valsToNat bw vs * 2 ^ bits ∧
      (∀ b ∈ packLoop (2 ^ bw - 1) bw vs acc bits, b < 256) ∧
      (packLoop (2 ^ bw - 1) bw vs acc bits).length =
        (bits + vs.length * bw + 7) / 8 := by
  intro vs
  induction vs with
  | nil =>
    intro acc bits hacc hbits _ _
    have hnil : packLoop (2 ^ bw - 1) bw [] acc bits =
        if 0 < bits then [acc &&& 255] else [] := rfl
    have hval : valsToNat bw ([] : List Nat) = 0 := rfl
    have hand : acc &&& 255 = acc % 256 := Nat.and_pow_two_sub_one_eq_mod acc 8
    have hlt : acc < 256 := by
      have h28 : (2 : Nat) ^ bits ≤ 2 ^ 8 := Nat.pow_le_pow_right (by norm_num) (by omega)
      omega
    rw [hnil, hval]
    by_cases hpos : 0 < bits
    · rw [if_pos hpos]
      refine ⟨?_, ?_, ?_⟩
      · show (acc &&& 255) + 256 * bytesToNat [] = acc + 0 * 2 ^ bits
        show (acc &&& 255) + 256 * 0 = acc + 0 * 2 ^ bits
        rw [hand]
        omega
      · intro b hb
        rw [List.mem_singleton] at hb
        rw [hb, hand]
        omega
      · show (1 : Nat) = (bits + List.length ([] : List Nat) * bw + 7) / 8
        show (1 : Nat) = (bits + 0 * bw + 7) / 8
        omega
    · rw [if_neg hpos]
      have hb0 : bits = 0 := by omega
      subst hb0
      have h20 : (2 : Nat) ^ 0 = 1 := rfl
      refine ⟨?_, ?_, ?_⟩
      · show (0 : Nat) = acc + 0 * 2 ^ 0
        omega
      · intro b hb
        simp at hb
      · show (0 : Nat) = (0 + List.length ([] : List Nat) * bw + 7) / 8
        show (0 : Nat) = (0 + 0 * bw + 7) / 8
        omega
  | cons v vs ih =>
    intro acc bits hacc hbits hdvd hvals
    have hg1 := Nat.gcd_dvd_left bw 8
    have hg8 := Nat.gcd_dvd_right bw 8
    have hgpos : 1 ≤ Nat.gcd bw 8 := Nat.gcd_pos_of_pos_left 8 hbw
    have hble : bits ≤ 8 - Nat.gcd bw 8 := by
      have hdvd8b : Nat.gcd bw 8 ∣ 8 - bits := Nat.dvd_sub' hg8 hdvd
      have hpos8b : 0 < 8 - bits := by omega
      have hle := Nat.le_of_dvd hpos8b hdvd8b
      omega
    have hgle : Nat.gcd bw 8 ≤ 8 := Nat.le_of_dvd (by norm_num) hg8
    have hbound : bw + bits ≤ 64 := by omega
    have hv : v < 2 ^ bw := hvals v (List.mem_cons_self v vs)
    have hvm : v &&& (2 ^ bw - 1) = v := by
      rw [Nat.and_pow_two_sub_one_eq_mod]
      exact Nat.mod_eq_of_lt hv
    have hfit : v * 2 ^ bits < 2 ^ (bw + bits) := by
      rw [pow_add]
      exact Nat.mul_lt_mul_of_lt_of_le hv (le_refl _) (Nat.pos_pow_of_pos bits (by norm_num))
    have hfit64 : v * 2 ^ bits < 2 ^ 64 := by
      calc v * 2 ^ bits < 2 ^ (bw + bits) := hfit
        _ ≤ 2 ^ 64 := Nat.pow_le_pow_right (by norm_num) hbound
    have hshift : ((v &&& (2 ^ bw - 1)) <<< bits) % 2 ^ 64 = v * 2 ^ bits := by
      rw [hvm, Nat.shiftLeft_eq]
      exact Nat.mod_eq_of_lt hfit64
    have hor : acc ||| v * 2 ^ bits = acc + v * 2 ^ bits := or_disjoint hacc v
    have hacc1 : acc + v * 2 ^ bits < 2 ^ (bits + bw) := by
      have h1 : acc + v * 2 ^ bits < 2 ^ bits + v * 2 ^ bits := by omega
      have h2 : (2 : Nat) ^ bits + v * 2 ^ bits = (v + 1) * 2 ^ bits := by ring
      have h3 : (v + 1) * 2 ^ bits ≤ 2 ^ bw * 2 ^ bits :=
        Nat.mul_le_mul_right _ (by omega)
      have h4 : (2 : Nat) ^ bw * 2 ^ bits = 2 ^ (bits + bw) := by
        rw [← pow_add, Nat.add_comm]
      omega
    obtain ⟨d1, d2, d3, d4, d5⟩ := packDrain_spec (bits + bw) (acc + v * 2 ^ bits)
    set acc1 := acc + v * 2 ^ bits with hacc1def
    set K := (bits + bw) / 8 with hK
    set r2 := (bits + bw) % 8 with hr2
    have hacc2 : acc1 / 2 ^ (8 * K) < 2 ^ r2 := by
      have h8 : 8 * K + r2 = bits + bw := by omega
      have : acc1 < 2 ^ (8 * K) * 2 ^ r2 := by
        rw [← pow_add, h8]
        exact hacc1
      exact Nat.div_lt_of_lt_mul this
    have hr2lt : r2 < 8 := by omega
    have hdvd2 : Nat.gcd bw 8 ∣ r2 := by
      have hsum : Nat.gcd bw 8 ∣ bits + bw := Nat.dvd_add hdvd hg1
      have h8K : Nat.gcd bw 8 ∣ 8 * K := Dvd.dvd.mul_right hg8 K
      have : r2 = bits + bw - 8 * K := by omega
      rw [this]
      exact Nat.dvd_sub' hsum h8K
    obtain ⟨ih1, ih2, ih3⟩ := ih (acc1 / 2 ^ (8 * K)) r2 hacc2 hr2lt hdvd2
      (fun x hx => hvals x (List.mem_cons_of_mem v hx))
    have hstep : packLoop (2 ^ bw - 1) bw (v :: vs) acc bits =
        (packDrain acc1 (bits + bw)).1 ++
          packLoop (2 ^ bw - 1) bw vs (acc1 / 2 ^ (8 * K)) r2 := by
      have hunfold : packLoop (2 ^ bw - 1) bw (v :: vs) acc bits =
          (packDrain (acc ||| ((v &&& (2 ^ bw - 1)) <<< bits) % 2 ^ 64) (bits + bw)).1 ++
            packLoop (2 ^ bw - 1) bw vs
              (packDrain (acc ||| ((v &&& (2 ^ bw - 1)) <<< bits) % 2 ^ 64) (bits + bw)).2.1
              (packDrain (acc ||| ((v &&& (2 ^ bw - 1)) <<< bits) % 2 ^ 64) (bits + bw)).2.2 :=
        rfl
      rw [hunfold, hshift, hor, d2, d3]
    refine ⟨?_, ?_, ?_⟩
    · rw [hstep, bytesToNat_append, d1, d5, ih1]
      have h256 : (256 : Nat) ^ K = 2 ^ (8 * K) := by
        rw [show (256 : Nat) = 2 ^ 8 from rfl, ← pow_mul]
      rw [h256]
      have hMD : acc1 % 2 ^ (8 * K) + 2 ^ (8 * K) * (acc1 / 2 ^ (8 * K)) = acc1 :=
        Nat.mod_add_div acc1 (2 ^ (8 * K))
      have hpow2 : (2 : Nat) ^ (8 * K) * 2 ^ r2 = 2 ^ bits * 2 ^ bw := by
        rw [← pow_add, ← pow_add]
        congr 1
        omega
      calc acc1 % 2 ^ (8 * K) +
            2 ^ (8 * K) * (acc1 / 2 ^ (8 * K) + valsToNat bw vs * 2 ^ r2)
          = (acc1 % 2 ^ (8 * K) + 2 ^ (8 * K) * (acc1 / 2 ^ (8 * K))) +
              (2 ^ (8 * K) * 2 ^ r2) * valsToNat bw vs := by ring
        _ = acc1 + (2 ^ bits * 2 ^ bw) * valsToNat bw vs := by rw [hMD, hpow2]
        _ = acc + (v + 2 ^ bw * valsToNat bw vs) * 2 ^ bits := by
            rw [hacc1def]
            ring
    · rw [hstep]
      intro b hb
      rcases List.mem_append.mp hb with hb | hb
      · exact d4 b hb
      · exact ih2 b hb
    · rw [hstep, List.length_append, d5, ih3]
      show K + (r2 + vs.length * bw + 7) / 8 = (bits + (vs.length + 1) * bw + 7) / 8
      have h8 : 8 * K + r2 = bits + bw := by omega
      have hx : bits + (vs.length + 1) * bw = 8 * K + (r2 + vs.length * bw) := by
        have : (vs.length + 1) * bw = vs.length * bw + bw := by ring
        omega
      omega

/-! ## The unpacking loop extracts the base-`2^bw` digits of the byte stream -/

theorem unpackLoadF_spec (bw : Nat) (hbw : 1 ≤ bw)
    (hsafe : bw + 8 - Nat.gcd bw 8 ≤ 64)
    (src : List Nat) (hsrc : ∀ b ∈ src, b < 256) :
    ∀ (fuel bits idx acc p : Nat), bw - bits ≤ 8 * fuel → 8 * idx = p + bits →
      acc = bytesToNat src / 2 ^ p % 2 ^ bits →
      Nat.gcd bw 8 ∣ bits → bits < bw + 8 → bits ≤ 64 →
      8 * (unpackLoadF src bw fuel idx acc bits).1 =
        p + (unpackLoadF src bw fuel idx acc bits).2.2 ∧
      (unpackLoadF src bw fuel idx acc bits).2.1 =
        bytesToNat src / 2 ^ p % 2 ^ (unpackLoadF src bw fuel idx acc bits).2.2 ∧
      bw ≤ (unpackLoadF src bw fuel idx acc bits).2.2 ∧
      (unpackLoadF src bw fuel idx acc bits).2.2 < bw + 8 ∧
      (unpackLoadF src bw fuel idx acc bits).2.2 ≤ 64 ∧
      Nat.gcd bw 8 ∣ (unpackLoadF src bw fuel idx acc bits).2.2 := by
  intro fuel
  induction fuel with
  | zero =>
    intro bits idx acc p hfuel hpi hacc hdvd hlt8 hb64
    have hge : bw ≤ bits := by omega
    exact ⟨hpi, hacc, hge, hlt8, hb64, hdvd⟩
  | succ fuel ih =>
    intro bits idx acc p hfuel hpi hacc hdvd hlt8 hb64
    simp only [unpackLoadF]
    by_cases h : bits < bw
    case pos =>
      rw [if_pos h]
      -- one more byte is loaded
      have hg1 := Nat.gcd_dvd_left bw 8
      have hg8 := Nat.gcd_dvd_right bw 8
      have hgle : Nat.gcd bw 8 ≤ 8 := Nat.le_of_dvd (by norm_num) hg8
      have hble : bits ≤ bw - Nat.gcd bw 8 := by
        have hdvdgap : Nat.gcd bw 8 ∣ bw - bits := Nat.dvd_sub' hg1 hdvd
        have hposgap : 0 < bw - bits := by omega
        have hle := Nat.le_of_dvd hposgap hdvdgap
        omega
      have h56 : bits ≤ 56 := by omega
      set byte := src.getD idx 0 with hbyte
      have hbval : byte = bytesToNat src / 256 ^ idx % 256 := bytesToNat_getD hsrc idx
      have hblt : byte < 256 := by
        rw [hbval]
        exact Nat.mod_lt _ (by norm_num)
      have hfit : byte * 2 ^ bits < 2 ^ 64 := by
        have hp : 0 < (2 : Nat) ^ bits := Nat.pos_pow_of_pos bits (by norm_num)
        have h1 : byte * 2 ^ bits < 256 * 2 ^ bits := by
          exact Nat.mul_lt_mul_of_lt_of_le hblt (le_refl _) hp
        have h2 : (256 : Nat) * 2 ^ bits = 2 ^ (bits + 8) := by
          rw [pow_add]
          ring
        have h3 : (2 : Nat) ^ (bits + 8) ≤ 2 ^ 64 := Nat.pow_le_pow_right (by norm_num) (by omega)
        omega
      have hshift : (byte <<< bits) % 2 ^ 64 = byte * 2 ^ bits := by
        rw [Nat.shiftLeft_eq]
        exact Nat.mod_eq_of_lt hfit
      have hacclt : acc < 2 ^ bits := by
        rw [hacc]
        exact Nat.mod_lt _ (Nat.pos_pow_of_pos bits (by norm_num))
      have hor : acc ||| byte * 2 ^ bits = acc + byte * 2 ^ bits := or_disjoint hacclt byte
      have hval : acc + byte * 2 ^ bits = bytesToNat src / 2 ^ p % 2 ^ (bits + 8) := by
        have h256 : (256 : Nat) ^ idx = 2 ^ p * 2 ^ bits := by
          have h8i : (256 : Nat) ^ idx = 2 ^ (8 * idx) := by
            rw [show (256 : Nat) = 2 ^ 8 from rfl, ← pow_mul]
          rw [h8i, hpi, pow_add]
        have hb2 : byte = bytesToNat src / 2 ^ p / 2 ^ bits % 2 ^ 8 := by
          rw [hbval, h256, Nat.div_div_eq_div_mul]
          norm_num
        have hsplit : bytesToNat src / 2 ^ p % 2 ^ (bits + 8) =
            bytesToNat src / 2 ^ p % 2 ^ bits +
              2 ^ bits * (bytesToNat src / 2 ^ p / 2 ^ bits % 2 ^ 8) := by
          rw [pow_add]
          exact Nat.mod_mul
        rw [hsplit, ← hacc, ← hb2]
        ring
      have happ := ih (bits + 8) (idx + 1)
        (acc ||| (byte <<< bits) % 2 ^ 64) p (by omega) (by omega)
        (by rw [hshift, hor, hval]) (Nat.dvd_add hdvd hg8) (by omega) (by omega)
      exact happ
    case neg =>
      rw [if_neg h]
      have hge : bw ≤ bits := by omega
      exact ⟨hpi, hacc, hge, hlt8, hb64, hdvd⟩

theorem unpackLoad_spec (bw : Nat) (hbw : 1 ≤ bw)
    (hsafe : bw + 8 - Nat.gcd bw 8 ≤ 64)
    (src : List Nat) (hsrc : ∀ b ∈ src, b < 256)
    (bits idx acc p : Nat) (hpi : 8 * idx = p + bits)
    (hacc : acc = bytesToNat src / 2 ^ p % 2 ^ bits)
    (hdvd : Nat.gcd bw 8 ∣ bits) (hlt8 : bits < bw + 8) (hb64 : bits ≤ 64) :
    8 * (unpackLoad src bw idx acc bits).1 = p + (unpackLoad src bw idx acc bits).2.2 ∧
    (unpackLoad src bw idx acc bits).2.1 =
      bytesToNat src / 2 ^ p % 2 ^ (unpackLoad src bw idx acc bits).2.2 ∧
    bw ≤ (unpackLoad src bw idx acc bits).2.2 ∧
    (unpackLoad src bw idx acc bits).2.2 < bw + 8 ∧
    (unpackLoad src bw idx acc bits).2.2 ≤ 64 ∧
    Nat.gcd bw 8 ∣ (unpackLoad src bw idx acc bits).2.2 :=
  unpackLoadF_spec bw hbw hsafe src hsrc bw bits idx acc p (by omega) hpi hacc hdvd
    hlt8 hb64

theorem unpackLoop_spec (bw : Nat) (hbw : 1 ≤ bw) (hbw64 : bw < 64)
    (hsafe : bw + 8 - Nat.gcd bw 8 ≤ 64)
    (src : List Nat) (hsrc : ∀ b ∈ src, b < 256) :
    ∀ (n bits idx acc p : Nat), 8 * idx = p + bits →
      acc = bytesToNat src / 2 ^ p % 2 ^ bits →
      Nat.gcd bw 8 ∣ bits → bits < 8 →
      unpackLoop (2 ^ bw - 1) src bw n idx acc bits =
        natDigits bw (bytesToNat src / 2 ^ p) n := by
  intro n
  induction n with
  | zero =>
    intro bits idx acc p _ _ _ _
    rfl
  | succ n ih =>
    intro bits idx acc p hpi hacc hdvd hbits
    obtain ⟨l1, l2, l3, l4, l5, l6⟩ := unpackLoad_spec bw hbw hsafe src hsrc
      bits idx acc p hpi hacc hdvd (by omega) (by omega)
    have hg1 := Nat.gcd_dvd_left bw 8
    have hunfold : unpackLoop (2 ^ bw - 1) src bw (n + 1) idx acc bits =
        ((unpackLoad src bw idx acc bits).2.1 &&& (2 ^ bw - 1)) ::
          unpackLoop (2 ^ bw - 1) src bw n (unpackLoad src bw idx acc bits).1
            ((unpackLoad src bw idx acc bits).2.1 >>> (bw % 64))
            ((unpackLoad src bw idx acc bits).2.2 - bw) := rfl
    rw [Nat.mod_eq_of_lt hbw64] at hunfold
    set l := unpackLoad src bw idx acc bits with hl
    have hhead : l.2.1 &&& (2 ^ bw - 1) = bytesToNat src / 2 ^ p % 2 ^ bw := by
      rw [Nat.and_pow_two_sub_one_eq_mod, l2, Nat.mod_mod_of_dvd]
      exact pow_dvd_pow 2 l3
    have htailacc : l.2.1 >>> bw = bytesToNat src / 2 ^ (p + bw) % 2 ^ (l.2.2 - bw) := by
      rw [Nat.shiftRight_eq_div_pow, l2]
      have hsplit : (2 : Nat) ^ l.2.2 = 2 ^ bw * 2 ^ (l.2.2 - bw) := by
        rw [← pow_add]
        congr 1
        omega
      rw [hsplit, Nat.mod_mul_right_div_self, Nat.div_div_eq_div_mul, ← pow_add]
    have htail : unpackLoop (2 ^ bw - 1) src bw n l.1 (l.2.1 >>> bw) (l.2.2 - bw) =
        natDigits bw (bytesToNat src / 2 ^ (p + bw)) n := by
      apply ih (l.2.2 - bw) l.1 (l.2.1 >>> bw) (p + bw) (by omega) htailacc
        (Nat.dvd_sub' l6 hg1) (by omega)
    have hdig : natDigits bw (bytesToNat src / 2 ^ p) (n + 1) =
        (bytesToNat src / 2 ^ p % 2 ^ bw) ::
          natDigits bw (bytesToNat src / 2 ^ (p + bw)) n := by
      show (bytesToNat src / 2 ^ p % 2 ^ bw) ::
          natDigits bw (bytesToNat src / 2 ^ p / 2 ^ bw) n = _
      rw [Nat.div_div_eq_div_mul, ← pow_add]
    rw [hunfold, hhead, htail, hdig]

/-! ## Claim C7: bit-pack round trip -/

/-- Claim C7 is false as stated, at two widths inside the claimed [0,64]
range.  At width 63, on the non-empty input `[0, 2^62]` (elements < 2^63),
the round trip loses the value: `acc |= v << bits` overflows the 64-bit
accumulator when `bits + bw > 64`.  At width 64, on `[1, 0]`, the unpacker's
`acc >>= bw` shifts a `uint64_t` by 64 - undefined behaviour that mainstream
targets compile as a mod-64 shift leaving the accumulator unchanged - so the
stale value 1 is re-emitted and `[1, 0]` unpacks to `[1, 1]`. -/
theorem C7_counterexample :
    ((∀ x ∈ [0, 2 ^ 62], x < 2 ^ 63) ∧ (63 ≤ 64) ∧ ([0, 2 ^ 62] ≠ ([] : List Nat)) ∧
      bitunpack_u64 (bitpack_u64 [0, 2 ^ 62] 63) 2 63 ≠ [0, 2 ^ 62]) ∧
    ((∀ x ∈ [1, 0], x < 2 ^ 64) ∧ ([1, 0] ≠ ([] : List Nat)) ∧
      bitunpack_u64 (bitpack_u64 [1, 0] 64) 2 64 = [1, 1]) := by
  exact ⟨⟨by decide, by decide, by decide, by decide⟩, by decide, by decide, by decide⟩

/-- Claim C7 (amended): for every non-empty list `xs` with every element below
`2^bw`, the round trip `bitunpack_u64 (bitpack_u64 xs bw) xs.length bw = xs`
holds for exactly the widths `bw < 64` with `bw + 8 - gcd(bw,8) ≤ 64`, i.e.
`bw ∈ [0,58] ∪ {60}`.  For `bw ∈ {59, 61, 62, 63}` a value can straddle the
64-bit accumulator and its top bits are lost, and at `bw = 64` the unpacker's
`acc >>= 64` is undefined behaviour compiled as a mod-64 shift, which leaves
the accumulator unchanged and corrupts every value after a nonzero one (see
the counterexample for both).  Width 0 still yields all-zero outputs, which
equal the inputs. -/
theorem C7_bitpack_roundtrip (xs : List Nat) (bw : Nat) (hne : xs ≠ [])
    (hlt : ∀ x ∈ xs, x < 2 ^ bw) (hbw64 : bw < 64)
    (hsafe : bw + 8 - Nat.gcd bw 8 ≤ 64) :
    bitunpack_u64 (bitpack_u64 xs bw) xs.length bw = xs := by
  by_cases hbw0 : bw = 0
  · subst hbw0
    have hzero : ∀ x ∈ xs, x = 0 := by
      intro x hx
      have := hlt x hx
      omega
    have hxs : xs = List.replicate xs.length 0 := List.eq_replicate_of_mem hzero
    show (if (0 : Nat) = 0 ∨ xs.length = 0 then List.replicate xs.length 0 else _) = xs
    rw [if_pos (Or.inl rfl)]
    exact hxs.symm
  · have hbw : 1 ≤ bw := by omega
    have hn0 : xs.length ≠ 0 := by
      intro h
      exact hne (List.eq_nil_of_length_eq_zero h)
    have hpack : bitpack_u64 xs bw = packLoop (2 ^ bw - 1) bw xs 0 0 := by
      show (if bw = 0 ∨ xs = [] then [] else
        packLoop (if bw = 64 then 2 ^ 64 - 1 else (1 <<< bw) - 1) bw xs 0 0) = _
      rw [if_neg (by tauto), mask64_eq]
    obtain ⟨p1, p2, _⟩ := packLoop_spec bw hbw hsafe xs 0 0 (by norm_num) (by norm_num)
      (Nat.dvd_zero _) hlt
    have hN : bytesToNat (packLoop (2 ^ bw - 1) bw xs 0 0) = valsToNat bw xs := by
      rw [p1]
      omega
    have hunpack : bitunpack_u64 (bitpack_u64 xs bw) xs.length bw =
        unpackLoop (2 ^ bw - 1) (packLoop (2 ^ bw - 1) bw xs 0 0) bw xs.length 0 0 0 := by
      show (if bw = 0 ∨ xs.length = 0 then _ else
        unpackLoop (if bw = 64 then 2 ^ 64 - 1 else (1 <<< bw) - 1)
          (bitpack_u64 xs bw) bw xs.length 0 0 0) = _
      rw [if_neg (by tauto), mask64_eq, hpack]
    rw [hunpack]
    rw [unpackLoop_spec bw hbw hbw64 hsafe (packLoop (2 ^ bw - 1) bw xs 0 0) p2
      xs.length 0 0 0 0 (by norm_num) (by omega) (Nat.dvd_zero _) (by norm_num)]
    rw [hN]
    show natDigits bw (valsToNat bw xs / 2 ^ 0) xs.length = xs
    rw [pow_zero, Nat.div_one]
    exact natDigits_valsToNat bw xs hlt

/-! ## Claim C1: block encode/decode does not round-trip prices -/

set_option maxRecDepth 100000 in
/-- Claim C1 (code bug): encoding two rows with prices 100 and 101 and decoding
the produced bytes yields rows whose prices are both 0, not the inputs:
`decode_block` unpacks the price column from `src + hdr.len_px` instead of
`src + hdr.off_px` (the spec itself flags this as a bug a correct
implementation must fix), and it never stores the reconstructed price into
the output row, whose value-initialized `price` stays 0.  The other columns
make it through, so the failure is exactly the price path the claim
describes. -/
theorem C1_price_roundtrip_bug :
    (decode_block (encode_block c1rows)).toOption.map
      (fun p => p.1.map (fun r => r.price)) = some [0, 0] ∧
    c1rows.map (fun r => r.price) = [100, 101] := by
  decide

/-! ## Claim C6: the decode-side price-overflow check can never fire -/

set_option maxRecDepth 100000 in
/-- Claim C6 (code bug): on the crafted block `c6src` the decoded price delta
is `zigzag_dec32 1 = -1` with `base_px = 0`, so the reconstructed price
`base_px + dx = -1` lies outside the u32 range and the claim (and spec §4.E)
requires `decode_block` to raise — yet it succeeds: `uint64_t px =
hdr.base_px + dx` wraps in `uint32_t` before widening, so
`px < 0 || px > UINT32_MAX` is identically false. -/
theorem C6_price_overflow_never_raises :
    (decode_block c6src).isOk = true ∧
    ((deserializeHeader c6src).base_px : Int) +
      zigzag_dec32 ((bitunpack_u32 (c6src.drop (deserializeHeader c6src).len_px)
        1 1).getD 0 0) = -1 := by
  decide

/-- Witness for C7 at `xs = [1, 2, 3]`, `bw = 2`. -/
theorem C7_bitpack_roundtrip_witness :
    ([1, 2, 3] ≠ ([] : List Nat)) ∧ (∀ x ∈ [1, 2, 3], x < 2 ^ 2) ∧ (2 < 64) ∧
    (2 + 8 - Nat.gcd 2 8 ≤ 64) ∧
    bitunpack_u64 (bitpack_u64 [1, 2, 3] 2) ([1, 2, 3] : List Nat).length 2 = [1, 2, 3] :=
  ⟨by decide, by decide, by decide, by decide,
    C7_bitpack_roundtrip [1, 2, 3] 2 (by decide) (by decide) (by decide) (by decide)⟩

/-! ## Header serialization / deserialization lemmas -/

theorem leBytes_length (w : Nat) : ∀ v : Nat, (leBytes w v).length = w := by
  induction w with
  | zero => intro v; rfl
  | succ w ih => intro v; simp [leBytes, ih]

theorem take_len_append (xs ys : List Nat) : (xs ++ ys).take xs.length = xs := by
  induction xs with
  | nil => simp
  | cons a xs ih => simp [ih]

theorem drop_len_append (xs ys : List Nat) (off : Nat) :
    (xs ++ ys).drop (xs.length + off) = ys.drop off := by
  induction xs with
  | nil => simp
  | cons a xs ih =>
    have h1 : (a :: xs).length + off = (xs.length + off) + 1 := by
      simp [List.length_cons]
      omega
    rw [h1, List.cons_append, List.drop_succ_cons]
    exact ih

theorem leRead_skip (xs ys : List Nat) (off w : Nat) :
    leRead (xs ++ ys) (xs.length + off) w = leRead ys off w := by
  unfold leRead
  rw [drop_len_append]

theorem leRead_here (w : Nat) : ∀ (v : Nat) (post : List Nat),
    leRead (leBytes w v ++ post) 0 w = v % 256 ^ w := by
  induction w with
  | zero =>
    intro v post
    simp [leRead, leBytes, bytesToNat]
    omega
  | succ w ih =>
    intro v post
    have h1 : leRead (leBytes (w + 1) v ++ post) 0 (w + 1) =
        v % 256 + 256 * leRead (leBytes w (v / 256) ++ post) 0 w := by
      simp [leRead, leBytes, bytesToNat]
    rw [h1, ih (v / 256) post]
    have h2 : (256 : Nat) ^ (w + 1) = 256 * 256 ^ w := by ring
    rw [h2, Nat.mod_mul]

theorem leFields_read : ∀ (fs : List (Nat × Nat)) (k : Nat) (rest : List Nat) (w v : Nat),
    fs.getD k (0, 0) = (w, v) → k < fs.length →
    leRead (leFields fs ++ rest) (widthSum (fs.take k)) w = v % 256 ^ w := by
  intro fs
  induction fs with
  | nil =>
    intro k rest w v _ hk
    simp at hk
  | cons p fs ih =>
    intro k rest w v hget hk
    obtain ⟨pw, pv⟩ := p
    cases k with
    | zero =>
      simp only [List.getD_cons_zero] at hget
      rw [Prod.mk.injEq] at hget
      obtain ⟨rfl, rfl⟩ := hget
      simp only [List.take_zero, widthSum, leFields, List.append_assoc]
      exact leRead_here pw pv _
    | succ k =>
      simp only [List.getD_cons_succ] at hget
      simp only [List.take_succ_cons, widthSum, leFields, List.append_assoc]
      rw [show pw + widthSum (fs.take k) = (leBytes pw pv).length + widthSum (fs.take k) from by
        rw [leBytes_length]]
      rw [leRead_skip]
      exact ih k rest w v hget (by simpa using hk)

theorem magicPart_length (h : BlockHeader) : (magicPart h).length = 8 := by
  simp only [magicPart, List.length_append, List.length_take, List.length_replicate]
  omega

theorem serializeHeader_eq (h : BlockHeader) :
    serializeHeader h = magicPart h ++ leFields (hdrFields h) := by
  simp [serializeHeader, magicPart, hdrFields, leFields, List.append_assoc]

theorem serializeHeader_length_eq (h : BlockHeader) : (serializeHeader h).length = 76 := by
  simp only [serializeHeader, List.length_append, leBytes_length, List.length_take,
    List.length_replicate]
  omega

theorem deser_magic (h : BlockHeader) (rest : List Nat) :
    (deserializeHeader (serializeHeader h ++ rest)).magic = magicPart h := by
  simp only [deserializeHeader]
  have hlen : (serializeHeader h ++ rest).length = 76 + rest.length := by
    simp [serializeHeader_length_eq]
  rw [hlen, show 8 - (76 + rest.length) = 0 from by omega]
  simp only [List.replicate_zero, List.append_nil, List.take_take]
  rw [serializeHeader_eq, List.append_assoc]
  rw [show min 8 8 = (magicPart h).length from by rw [magicPart_length]; norm_num]
  exact take_len_append _ _

theorem deser_n_rows (h : BlockHeader) (rest : List Nat) :
    (deserializeHeader (serializeHeader h ++ rest)).n_rows = h.n_rows % 2 ^ 32 := by
  simp only [deserializeHeader]
  rw [serializeHeader_eq, List.append_assoc]
  rw [show (12 : Nat) = (magicPart h).length + 4 from by rw [magicPart_length]]
  rw [leRead_skip]
  have h4 := leFields_read (hdrFields h) 2 rest 4 h.n_rows (by simp [hdrFields])
    (by simp [hdrFields])
  rw [show widthSum ((hdrFields h).take 2) = 4 from by simp [hdrFields, widthSum]] at h4
  rw [h4]
  norm_num

theorem deser_off_side (h : BlockHeader) (rest : List Nat) :
    (deserializeHeader (serializeHeader h ++ rest)).off_side = h.off_side % 2 ^ 32 := by
  simp only [deserializeHeader]
  rw [serializeHeader_eq, List.append_assoc]
  rw [show (60 : Nat) = (magicPart h).length + 52 from by rw [magicPart_length]]
  rw [leRead_skip]
  have h4 := leFields_read (hdrFields h) 15 rest 4 h.off_side (by simp [hdrFields])
    (by simp [hdrFields])
  rw [show widthSum ((hdrFields h).take 15) = 52 from by simp [hdrFields, widthSum]] at h4
  rw [h4]
  norm_num

theorem deser_off_type (h : BlockHeader) (rest : List Nat) :
    (deserializeHeader (serializeHeader h ++ rest)).off_type = h.off_type % 2 ^ 32 := by
  simp only [deserializeHeader]
  rw [serializeHeader_eq, List.append_assoc]
  rw [show (68 : Nat) = (magicPart h).length + 60 from by rw [magicPart_length]]
  rw [leRead_skip]
  have h4 := leFields_read (hdrFields h) 17 rest 4 h.off_type (by simp [hdrFields])
    (by simp [hdrFields])
  rw [show widthSum ((hdrFields h).take 17) = 60 from by simp [hdrFields, widthSum]] at h4
  rw [h4]
  norm_num

/-! ## Payload length bounds -/

theorem packLoop_length_le (mask bw : Nat) :
    ∀ (vs : List Nat) (acc bits : Nat),
      (packLoop mask bw vs acc bits).length ≤ (bits + vs.length * bw) / 8 + 1 := by
  intro vs
  induction vs with
  | nil =>
    intro acc bits
    by_cases hpos : 0 < bits
    · simp [packLoop, if_pos hpos]
    · simp [packLoop, if_neg hpos]
  | cons v vs ih =>
    intro acc bits
    have hstep : packLoop mask bw (v :: vs) acc bits =
        (packDrain (acc ||| (((v &&& mask) <<< bits) % 2 ^ 64)) (bits + bw)).1 ++
          packLoop mask bw vs
            (packDrain (acc ||| (((v &&& mask) <<< bits) % 2 ^ 64)) (bits + bw)).2.1
            (packDrain (acc ||| (((v &&& mask) <<< bits) % 2 ^ 64)) (bits + bw)).2.2 := rfl
    obtain ⟨-, -, hbits, -, hlen⟩ :=
      packDrain_spec (bits + bw) (acc ||| (((v &&& mask) <<< bits) % 2 ^ 64))
    rw [hstep, List.length_append, hlen, hbits]
    have hrec := ih (packDrain (acc ||| (((v &&& mask) <<< bits) % 2 ^ 64)) (bits + bw)).2.1
      ((bits + bw) % 8)
    have hmul : (v :: vs).length * bw = vs.length * bw + bw := by
      simp [List.length_cons]
      ring
    rw [hmul]
    generalize vs.length * bw = L at hrec ⊢
    omega

theorem bitLenF_le : ∀ (f n : Nat), bitLenF f n ≤ f := by
  intro f
  induction f with
  | zero => intro n; simp [bitLenF]
  | succ f ih =>
    intro n
    by_cases h0 : n = 0
    · simp [bitLenF, h0]
    · simp only [bitLenF, if_neg h0]
      exact Nat.succ_le_succ (ih (n / 2))

theorem ceil_log2_u64_le (x : Nat) : ceil_log2_u64 x ≤ 64 := by
  unfold ceil_log2_u64
  by_cases h : x ≤ 1
  · simp [h]
  · simp only [if_neg h]
    exact bitLenF_le 64 (x - 1)

theorem bitpack_u64_length_le (vals : List Nat) (bw : Nat) (hbw : bw ≤ 64) :
    (bitpack_u64 vals bw).length ≤ vals.length * 8 + 1 := by
  unfold bitpack_u64
  by_cases hg : bw = 0 ∨ vals = []
  · simp [hg]
  · simp only [if_neg hg]
    have h1 := packLoop_length_le (if bw = 64 then 2 ^ 64 - 1 else (1 <<< bw) - 1) bw vals 0 0
    have h3 : vals.length * bw ≤ vals.length * 64 := Nat.mul_le_mul_left _ hbw
    have h6 : (0 + vals.length * bw) / 8 ≤ (0 + vals.length * 64) / 8 :=
      Nat.div_le_div_right (Nat.add_le_add_left h3 0)
    have h7 : (0 + vals.length * 64) / 8 = vals.length * 8 := by omega
    exact le_trans h1 (by rw [h7] at h6; omega)

theorem bitpack_u32_length_le (vals : List Nat) (bw : Nat) (hbw : bw ≤ 64) :
    (bitpack_u32 vals bw).length ≤ vals.length * 8 + 1 := by
  unfold bitpack_u32
  by_cases hg : bw = 0 ∨ vals = []
  · simp [hg]
  · simp only [if_neg hg]
    have h1 := packLoop_length_le (if bw = 32 then 2 ^ 32 - 1 else (1 <<< bw) - 1) bw vals 0 0
    have h3 : vals.length * bw ≤ vals.length * 64 := Nat.mul_le_mul_left _ hbw
    have h6 : (0 + vals.length * bw) / 8 ≤ (0 + vals.length * 64) / 8 :=
      Nat.div_le_div_right (Nat.add_le_add_left h3 0)
    have h7 : (0 + vals.length * 64) / 8 = vals.length * 8 := by omega
    exact le_trans h1 (by rw [h7] at h6; omega)

theorem bitpack_u8F_length : ∀ (fuel : Nat) (s : List Nat), s.length ≤ fuel →
    (bitpack_u8F fuel s).length = (s.length + 7) / 8 := by
  intro fuel
  induction fuel with
  | zero =>
    intro s hs
    have h0 : s.length = 0 := by omega
    simp [bitpack_u8F, h0]
  | succ fuel ih =>
    intro s hs
    by_cases h8 : 8 ≤ s.length
    · have hdrop : (s.drop 8).length = s.length - 8 := by simp
      simp only [bitpack_u8F, if_pos h8, List.length_cons]
      rw [ih (s.drop 8) (by rw [hdrop]; omega), hdrop]
      omega
    · by_cases h0 : s.length = 0
      · simp [bitpack_u8F, if_neg h8, h0]
      · simp only [bitpack_u8F, if_neg h8, if_neg h0, List.length_cons, List.length_nil]
        omega

theorem bitpack_u8_length (s : List Nat) :
    (bitpack_u8 s).length = (s.length + 7) / 8 :=
  bitpack_u8F_length s.length s le_rfl

theorem encSz_length (rows : List TradeRow) : (encSz rows).length = rows.length * 4 := by
  induction rows with
  | nil => rfl
  | cons r rows ih =>
    simp only [encSz, List.map_cons, List.flatten_cons, List.length_append, leBytes_length,
      List.length_cons]
    simp only [encSz] at ih
    omega

/-! ## The 1-bit pack / unpack round trip -/

theorem packBits_eq (c : List Nat) : ∀ b : Nat,
    packBits c b = valsToNat 1 (c.map (fun v => v &&& 1)) * 2 ^ b := by
  induction c with
  | nil => intro b; simp [packBits, valsToNat]
  | cons v vs ih =>
    intro b
    have hand : v &&& 1 < 2 := Nat.lt_succ_of_le (Nat.and_le_right)
    have hsh : (v &&& 1) <<< b = (v &&& 1) * 2 ^ b := Nat.shiftLeft_eq _ _
    have hlt : (v &&& 1) * 2 ^ b < 2 ^ (b + 1) := by
      have h1 : (v &&& 1) * 2 ^ b ≤ 1 * 2 ^ b := Nat.mul_le_mul_right _ (by omega)
      have h2 : (2 : Nat) ^ (b + 1) = 2 * 2 ^ b := by ring
      have h3 : (0 : Nat) < 2 ^ b := Nat.pos_pow_of_pos b (by norm_num)
      omega
    have hor := or_disjoint hlt (valsToNat 1 (vs.map (fun v => v &&& 1)))
    calc packBits (v :: vs) b
        = ((v &&& 1) <<< b) ||| packBits vs (b + 1) := rfl
      _ = ((v &&& 1) * 2 ^ b) ||| valsToNat 1 (vs.map (fun v => v &&& 1)) * 2 ^ (b + 1) := by
          rw [hsh, ih (b + 1)]
      _ = (v &&& 1) * 2 ^ b + valsToNat 1 (vs.map (fun v => v &&& 1)) * 2 ^ (b + 1) := hor
      _ = valsToNat 1 ((v :: vs).map (fun v => v &&& 1)) * 2 ^ b := by
          simp only [List.map_cons, valsToNat]
          ring

theorem valsToNat_one_getD : ∀ (ds : List Nat) (k : Nat), (∀ d ∈ ds, d ≤ 1) →
    k < ds.length → valsToNat 1 ds / 2 ^ k % 2 = ds.getD k 0 := by
  intro ds
  induction ds with
  | nil =>
    intro k _ hk
    simp at hk
  | cons d ds ih =>
    intro k hle hk
    have hd : d ≤ 1 := hle d (List.mem_cons_self d ds)
    cases k with
    | zero =>
      simp only [pow_zero, Nat.div_one, List.getD_cons_zero, valsToNat, pow_one]
      omega
    | succ k =>
      have h1 : valsToNat 1 (d :: ds) / 2 ^ (k + 1) = valsToNat 1 ds / 2 ^ k := by
        have h2 : valsToNat 1 (d :: ds) = d + 2 * valsToNat 1 ds := by
          simp [valsToNat]
        have h3 : (2 : Nat) ^ (k + 1) = 2 * 2 ^ k := by ring
        rw [h2, h3, ← Nat.div_div_eq_div_mul]
        congr 1
        omega
      rw [h1, List.getD_cons_succ]
      exact ih k (fun x hx => hle x (List.mem_cons_of_mem d hx)) (by simpa using hk)

theorem packBits_bit (c : List Nat) (k : Nat) (hk : k < c.length) :
    (packBits c 0 >>> k) &&& 1 = (c.getD k 0) &&& 1 := by
  rw [packBits_eq c 0, pow_zero, Nat.mul_one, Nat.shiftRight_eq_div_pow, Nat.and_one_is_mod,
    Nat.and_one_is_mod]
  rw [valsToNat_one_getD (c.map (fun v => v &&& 1)) k
    (by
      intro d hd
      simp only [List.mem_map] at hd
      obtain ⟨x, -, rfl⟩ := hd
      exact Nat.and_le_right)
    (by simpa using hk)]
  rw [List.getD_eq_getElem (c.map (fun v => v &&& 1)) 0 (by simpa using hk),
    List.getD_eq_getElem c 0 hk, List.getElem_map, Nat.and_one_is_mod]

theorem range_map_packBits (c : List Nat) :
    (List.range c.length).map (fun k => (packBits c 0 >>> k) &&& 1) =
      c.map (fun v => v &&& 1) := by
  apply List.ext_getElem
  · simp
  · intro i h1 h2
    simp only [List.getElem_map, List.getElem_range]
    have hi : i < c.length := by simpa using h1
    rw [packBits_bit c i hi, List.getD_eq_getElem c 0 hi]

theorem range_map_packBits_len (c : List Nat) (m : Nat) (hm : c.length = m) :
    (List.range m).map (fun k => (packBits c 0 >>> k) &&& 1) =
      c.map (fun v => v &&& 1) := by
  subst hm
  exact range_map_packBits c

theorem bitunpack_bitpack_u8F : ∀ (fuel : Nat) (s rest : List Nat), s.length ≤ fuel →
    bitunpack_u8F fuel (bitpack_u8F fuel s ++ rest) s.length = s.map (fun v => v &&& 1) := by
  intro fuel
  induction fuel with
  | zero =>
    intro s rest hs
    have h0 : s = [] := List.length_eq_zero.mp (by omega)
    subst h0
    simp [bitpack_u8F, bitunpack_u8F]
  | succ fuel ih =>
    intro s rest hs
    by_cases h8 : 8 ≤ s.length
    · have htake : (s.take 8).length = 8 := by
        simp [List.length_take]
        omega
      have hdrop : (s.drop 8).length = s.length - 8 := by simp
      rw [show bitpack_u8F (fuel + 1) s =
          packBits (s.take 8) 0 :: bitpack_u8F fuel (s.drop 8) from by
        simp only [bitpack_u8F, if_pos h8]]
      rw [List.cons_append]
      rw [show bitunpack_u8F (fuel + 1)
            (packBits (s.take 8) 0 :: (bitpack_u8F fuel (s.drop 8) ++ rest)) s.length =
          (List.range 8).map (fun k => (packBits (s.take 8) 0 >>> k) &&& 1) ++
            bitunpack_u8F fuel (bitpack_u8F fuel (s.drop 8) ++ rest) (s.length - 8) from by
        simp only [bitunpack_u8F, if_pos h8, List.getD_cons_zero, List.drop_succ_cons,
          List.drop_zero]]
      rw [range_map_packBits_len (s.take 8) 8 htake]
      rw [show s.length - 8 = (s.drop 8).length from hdrop.symm]
      rw [ih (s.drop 8) rest (by rw [hdrop]; omega)]
      rw [← List.map_append, List.take_append_drop]
    · by_cases h0 : s.length = 0
      · have hnil : s = [] := List.length_eq_zero.mp h0
        subst hnil
        simp [bitpack_u8F, bitunpack_u8F]
      · rw [show bitpack_u8F (fuel + 1) s = [packBits s 0] from by
          simp only [bitpack_u8F, if_neg h8, if_neg h0]]
        rw [show ([packBits s 0] ++ rest) = packBits s 0 :: rest from rfl]
        rw [show bitunpack_u8F (fuel + 1) (packBits s 0 :: rest) s.length =
            (List.range s.length).map (fun k => (packBits s 0 >>> k) &&& 1) from by
          simp only [bitunpack_u8F, if_neg h8, List.getD_cons_zero]]
        exact range_map_packBits s

theorem bitunpack_bitpack_u8 (s rest : List Nat) :
    bitunpack_u8 (bitpack_u8 s ++ rest) s.length = s.map (fun v => v &&& 1) :=
  bitunpack_bitpack_u8F s.length s rest le_rfl

/-! ## Decode of an encoded block: assembly lemmas -/

theorem decodeRow_ok (hdr : BlockHeader) (src ts px sd tp : List Nat) (i : Nat) :
    decodeRow hdr src ts px sd tp i = Except.ok (decodeRowOut hdr src ts px sd tp i) := by
  have hb : ((hdr.base_px : Int) + zigzag_dec32 (px.getD i 0)) % (2 ^ 32 : Int) < 2 ^ 32 :=
    Int.emod_lt_of_pos _ (by norm_num)
  have hb0 : 0 ≤ ((hdr.base_px : Int) + zigzag_dec32 (px.getD i 0)) % (2 ^ 32 : Int) :=
    Int.emod_nonneg _ (by norm_num)
  simp only [decodeRow, decodeRowOut]
  rw [if_neg (by omega)]

theorem mapM_ok {α β : Type} (l : List α) (f : α → Except String β) (g : α → β)
    (h : ∀ a ∈ l, f a = Except.ok (g a)) : l.mapM f = Except.ok (l.map g) := by
  induction l with
  | nil => rfl
  | cons a l ih =>
    rw [List.mapM_cons, h a (List.mem_cons_self a l),
      ih (fun x hx => h x (List.mem_cons_of_mem a hx))]
    rfl

theorem decode_rows_ok (hdr : BlockHeader) (src ts px sd tp : List Nat) (n : Nat) :
    (List.range n).mapM (decodeRow hdr src ts px sd tp) =
      Except.ok ((List.range n).map (decodeRowOut hdr src ts px sd tp)) :=
  mapM_ok _ _ _ (fun i _ => decodeRow_ok hdr src ts px sd tp i)

theorem range_map_getD_fun {α β : Type} (l : List α) (d : α) (f : α → β) :
    (List.range l.length).map (fun i => f (l.getD i d)) = l.map f := by
  induction l with
  | nil => rfl
  | cons a l ih =>
    simp only [List.length_cons, List.range_succ_eq_map, List.map_cons, List.map_map,
      Function.comp_def, List.getD_cons_succ, List.getD_cons_zero]
    rw [ih]

theorem map_eq_map_mem_iff {α β : Type} (l : List α) (f g : α → β) :
    l.map f = l.map g ↔ ∀ a ∈ l, f a = g a := by
  induction l with
  | nil => simp
  | cons a l ih =>
    simp only [List.map_cons, List.cons.injEq, List.mem_cons]
    constructor
    · rintro ⟨h1, h2⟩ x hx
      rcases hx with rfl | hx
      · exact h1
      · exact (ih.mp h2) x hx
    · intro h
      exact ⟨h a (Or.inl rfl), ih.mpr (fun x hx => h x (Or.inr hx))⟩

set_option maxHeartbeats 2000000 in
/-- Decoding a buffer laid out exactly as `encode_block` lays it out - a valid
serialized header followed by five column payloads whose side and type columns
are 1-bit packs at the header's recorded offsets - succeeds and returns rows
whose side is the packed value's low bit and whose type is 84 or 76 according
to that bit. -/
theorem decode_block_sides_types (h : BlockHeader)
    (tsB pxB szB sds tps : List Nat)
    (hmagic8 : h.magic = List.replicate 8 0)
    (hn0 : h.n_rows ≠ 0) (hn32 : h.n_rows < 2 ^ 32)
    (hoffside : h.off_side = 76 + (tsB.length + (pxB.length + szB.length)))
    (hofftype : h.off_type =
      76 + (tsB.length + (pxB.length + (szB.length + (bitpack_u8 sds).length))))
    (hos32 : h.off_side < 2 ^ 32) (hot32 : h.off_type < 2 ^ 32)
    (hslen : sds.length = h.n_rows) (htlen : tps.length = h.n_rows) :
    ∃ pr : List TradeRow × Nat,
      decode_block (serializeHeader h ++
          (tsB ++ (pxB ++ (szB ++ (bitpack_u8 sds ++ bitpack_u8 tps))))) = Except.ok pr ∧
        pr.1.map (fun r => r.side) = sds.map (fun v => v &&& 1) ∧
        pr.1.map (fun r => r.type) = tps.map (fun v => if v &&& 1 = 1 then 84 else 76) := by
  set src := serializeHeader h ++
    (tsB ++ (pxB ++ (szB ++ (bitpack_u8 sds ++ bitpack_u8 tps)))) with hsrc
  have hbig : ¬ src.length < HDR_SIZE := by
    rw [hsrc]
    simp only [HDR_SIZE, List.length_append, serializeHeader_length_eq]
    omega
  have hdmagic : (deserializeHeader src).magic = List.replicate 8 0 := by
    rw [hsrc, deser_magic]
    simp [magicPart, hmagic8]
  have hcm : check_magic (deserializeHeader src) = true := by
    simp [check_magic, hdmagic]
  have hcm2 : ¬ ¬ (check_magic (deserializeHeader src) = true) := not_not_intro hcm
  have hdn : (deserializeHeader src).n_rows = h.n_rows := by
    rw [hsrc, deser_n_rows, Nat.mod_eq_of_lt hn32]
  have hn02 : ¬ ((deserializeHeader src).n_rows = 0) := by
    rw [hdn]
    exact hn0
  have hdropS : src.drop h.off_side = bitpack_u8 sds ++ bitpack_u8 tps := by
    rw [hsrc, hoffside]
    rw [show 76 + (tsB.length + (pxB.length + szB.length)) =
        (serializeHeader h).length + (tsB.length + (pxB.length + (szB.length + 0))) from by
      rw [serializeHeader_length_eq]
      omega]
    rw [drop_len_append, drop_len_append, drop_len_append, drop_len_append, List.drop_zero]
  have hdropT : src.drop h.off_type = bitpack_u8 tps := by
    rw [hsrc, hofftype]
    rw [show 76 + (tsB.length + (pxB.length + (szB.length + (bitpack_u8 sds).length))) =
        (serializeHeader h).length +
          (tsB.length + (pxB.length + (szB.length + ((bitpack_u8 sds).length + 0)))) from by
      rw [serializeHeader_length_eq]
      omega]
    rw [drop_len_append, drop_len_append, drop_len_append, drop_len_append, drop_len_append,
      List.drop_zero]
  have hdos : (deserializeHeader src).off_side = h.off_side := by
    rw [hsrc, deser_off_side, Nat.mod_eq_of_lt hos32]
  have hdot : (deserializeHeader src).off_type = h.off_type := by
    rw [hsrc, deser_off_type, Nat.mod_eq_of_lt hot32]
  have hsd : decode_sides_col (deserializeHeader src) src = sds.map (fun v => v &&& 1) := by
    rw [decode_sides_col, hdn, hdos, hdropS, ← hslen]
    exact bitunpack_bitpack_u8 sds (bitpack_u8 tps)
  have htp2 : decode_types_col (deserializeHeader src) src = tps.map (fun v => v &&& 1) := by
    rw [decode_types_col, hdn, hdot, hdropT, ← htlen]
    rw [show bitpack_u8 tps = bitpack_u8 tps ++ [] from (List.append_nil _).symm]
    exact bitunpack_bitpack_u8 tps []
  have hdec0 : decode_block src = Except.ok
      ((List.range h.n_rows).map (decodeRowOut (deserializeHeader src) src
          (decode_ts (deserializeHeader src) src) (decode_px (deserializeHeader src) src)
          (sds.map (fun v => v &&& 1)) (tps.map (fun v => v &&& 1))),
        max (decode_end (deserializeHeader src)) HDR_SIZE) := by
    rw [decode_block, if_neg hbig, decode_body, if_neg hcm2, if_neg hn02, decode_cols,
      hsd, htp2, hdn, decode_rows_ok]
  refine ⟨_, hdec0, ?_, ?_⟩
  · simp only [List.map_map, Function.comp_def, decodeRowOut]
    rw [show h.n_rows = (sds.map (fun v => v &&& 1)).length from by simpa using hslen.symm]
    exact (range_map_getD_fun (sds.map (fun v => v &&& 1)) 0 (fun x => x)).trans
      (List.map_id' _)
  · simp only [List.map_map, Function.comp_def, decodeRowOut]
    rw [show h.n_rows = (tps.map (fun v => v &&& 1)).length from by simpa using htlen.symm]
    rw [range_map_getD_fun (tps.map (fun v => v &&& 1)) 0 (fun v => if v = 1 then 84 else 76)]
    simp only [List.map_map, Function.comp_def]

/-! ## Claim C10: the block codec keeps only the low bit of each side -/

set_option maxHeartbeats 1000000 in
/-- **C10**: for every non-empty row list (of u32-representable length, here
bounded by 2^27 so the header's u32 offset fields cannot truncate), encoding
then decoding succeeds, each decoded side equals the original side modulo 2,
each decoded type is 84 (`'T'`) exactly when the original type was 84 and 76
(`'L'`) otherwise, and the sides are recovered exactly iff every input side is
0 or 1. -/
theorem C10_side_type_roundtrip (rows : List TradeRow) (hne : rows ≠ [])
    (hlen : rows.length ≤ 2 ^ 27) :
    ∃ pr : List TradeRow × Nat,
      decode_block (encode_block rows) = Except.ok pr ∧
      pr.1.map (fun r => r.side) = rows.map (fun r => r.side % 2) ∧
      pr.1.map (fun r => r.type) = rows.map (fun r => if r.type = 84 then 84 else 76) ∧
      (pr.1.map (fun r => r.side) = rows.map (fun r => r.side) ↔
        ∀ r ∈ rows, r.side < 2) := by
  obtain ⟨r0, rtl, rfl⟩ := List.exists_cons_of_ne_nil hne
  have h27 : (2 : Nat) ^ 27 = 134217728 := by norm_num
  have h32 : (2 : Nat) ^ 32 = 4294967296 := by norm_num
  have henc : encode_block (r0 :: rtl) =
      serializeHeader (encHdr (r0 :: rtl) r0) ++
        (bitpack_u64 (encTsDelta (r0 :: rtl) r0.ts_ns) (encTsBw (r0 :: rtl) r0.ts_ns) ++
          (bitpack_u32 (encPxZz (r0 :: rtl) r0.price) (encPxBw (r0 :: rtl) r0.price) ++
            (encSz (r0 :: rtl) ++
              (bitpack_u8 (encSides (r0 :: rtl)) ++ bitpack_u8 (encTypes (r0 :: rtl)))))) := by
    simp only [encode_block, List.append_assoc]
  have htsbw : encTsBw (r0 :: rtl) r0.ts_ns ≤ 64 := ceil_log2_u64_le _
  have hpxbw : encPxBw (r0 :: rtl) r0.price ≤ 64 := ceil_log2_u64_le _
  have htdl : (encTsDelta (r0 :: rtl) r0.ts_ns).length = (r0 :: rtl).length := by
    simp [encTsDelta]
  have hpzl : (encPxZz (r0 :: rtl) r0.price).length = (r0 :: rtl).length := by
    simp [encPxZz]
  have htsl := bitpack_u64_length_le (encTsDelta (r0 :: rtl) r0.ts_ns)
    (encTsBw (r0 :: rtl) r0.ts_ns) htsbw
  have hpxl := bitpack_u32_length_le (encPxZz (r0 :: rtl) r0.price)
    (encPxBw (r0 :: rtl) r0.price) hpxbw
  rw [htdl] at htsl
  rw [hpzl] at hpxl
  have hsql : (encSz (r0 :: rtl)).length = (r0 :: rtl).length * 4 := encSz_length _
  have hsdl : (encSides (r0 :: rtl)).length = (r0 :: rtl).length := by simp [encSides]
  have htpl : (encTypes (r0 :: rtl)).length = (r0 :: rtl).length := by simp [encTypes]
  have hsbl : (bitpack_u8 (encSides (r0 :: rtl))).length = ((r0 :: rtl).length + 7) / 8 := by
    rw [bitpack_u8_length, hsdl]
  have hHn : (encHdr (r0 :: rtl) r0).n_rows = (r0 :: rtl).length := rfl
  have hHm : (encHdr (r0 :: rtl) r0).magic = List.replicate 8 0 := rfl
  have hHos : (encHdr (r0 :: rtl) r0).off_side = HDR_SIZE +
      (bitpack_u64 (encTsDelta (r0 :: rtl) r0.ts_ns) (encTsBw (r0 :: rtl) r0.ts_ns)).length +
      (bitpack_u32 (encPxZz (r0 :: rtl) r0.price) (encPxBw (r0 :: rtl) r0.price)).length +
      (r0 :: rtl).length * 4 := rfl
  have hHot : (encHdr (r0 :: rtl) r0).off_type = HDR_SIZE +
      (bitpack_u64 (encTsDelta (r0 :: rtl) r0.ts_ns) (encTsBw (r0 :: rtl) r0.ts_ns)).length +
      (bitpack_u32 (encPxZz (r0 :: rtl) r0.price) (encPxBw (r0 :: rtl) r0.price)).length +
      (r0 :: rtl).length * 4 + (bitpack_u8 (encSides (r0 :: rtl))).length := rfl
  obtain ⟨pr, hdec, hside, htype⟩ := decode_block_sides_types (encHdr (r0 :: rtl) r0)
    (bitpack_u64 (encTsDelta (r0 :: rtl) r0.ts_ns) (encTsBw (r0 :: rtl) r0.ts_ns))
    (bitpack_u32 (encPxZz (r0 :: rtl) r0.price) (encPxBw (r0 :: rtl) r0.price))
    (encSz (r0 :: rtl)) (encSides (r0 :: rtl)) (encTypes (r0 :: rtl))
    hHm
    (by rw [hHn]; simp)
    (by rw [hHn]; omega)
    (by rw [hHos, hsql]; simp only [HDR_SIZE]; omega)
    (by rw [hHot, hsql]; simp only [HDR_SIZE]; omega)
    (by rw [hHos]; simp only [HDR_SIZE]; omega)
    (by rw [hHot]; simp only [HDR_SIZE]; omega)
    (by rw [hsdl, hHn])
    (by rw [htpl, hHn])
  have hS : pr.1.map (fun r => r.side) = (r0 :: rtl).map (fun r => r.side % 2) := by
    rw [hside]
    simp only [encSides, List.map_map, Function.comp_def]
    apply (map_eq_map_mem_iff _ _ _).mpr
    intro r _
    rw [Nat.and_one_is_mod]
    exact Nat.mod_mod_of_dvd r.side (by norm_num)
  have hT : pr.1.map (fun r => r.type) =
      (r0 :: rtl).map (fun r => if r.type = 84 then 84 else 76) := by
    rw [htype]
    simp only [encTypes, List.map_map, Function.comp_def]
    apply (map_eq_map_mem_iff _ _ _).mpr
    intro r _
    by_cases ht : r.type = 84
    · simp [ht]
    · simp [ht]
  refine ⟨pr, by rw [henc]; exact hdec, hS, hT, ?_⟩
  constructor
  · intro hmapeq r hr
    have h1 : (r0 :: rtl).map (fun r => r.side % 2) = (r0 :: rtl).map (fun r => r.side) :=
      hS.symm.trans hmapeq
    have h2 := (map_eq_map_mem_iff _ _ _).mp h1 r hr
    omega
  · intro hall
    rw [hS]
    apply (map_eq_map_mem_iff _ _ _).mpr
    intro r hr
    exact Nat.mod_eq_of_lt (hall r hr)

/-- Witness for C10: the concrete two-row list (sides 3 and 0, types 84 and
65) encodes and decodes with sides 1 and 0 (the low bits), types 84 and 76,
and - since side 3 is not a bit - the sides are not recovered exactly. -/
theorem C10_side_type_roundtrip_witness :
    ∃ pr : List TradeRow × Nat,
      decode_block (encode_block c10rows) = Except.ok pr ∧
      pr.1.map (fun r => r.side) = c10rows.map (fun r => r.side % 2) ∧
      pr.1.map (fun r => r.type) = c10rows.map (fun r => if r.type = 84 then 84 else 76) ∧
      (pr.1.map (fun r => r.side) = c10rows.map (fun r => r.side) ↔
        ∀ r ∈ c10rows, r.side < 2) :=
  C10_side_type_roundtrip c10rows (by decide) (by decide)

end HftStore
